import Mathlib

/-!
Verification of the vetree-verilog core against its specification.

The TypeScript sources (src/parser/types.ts, src/parser/tsRegexBackend.ts,
src/extension.ts) are shallowly embedded here: texts are `List Char`,
JavaScript `Set`/`Map` objects become lists / association lists that keep
JavaScript's insertion-order semantics, and the regular expressions used by
the extractor are unfolded into explicit scanning functions with the same
matching semantics (line-start anchoring, greedy identifier runs, word
boundaries).  Loops that walk a text by index are written with an explicit
fuel argument so that every definition is executable; fuel is always
instantiated so that it dominates the number of loop iterations of the
original code.
-/

namespace Vetree

/-- Character class of the JavaScript regex `\s` restricted to the ASCII
range (space, tab, newline, carriage return, vertical tab, form feed).
All texts considered here are ASCII, as are all concrete inputs. -/
def jsWhite (c : Char) : Bool :=
  c = ' ' || c = '\t' || c = '\n' || c = '\r' || c = '\x0b' || c = '\x0c'

/-- Character class of `[ \t]` (horizontal whitespace only, never `\n`),
used by the line-start anchored module/instance regexes. -/
def horizWhite (c : Char) : Bool :=
  c = ' ' || c = '\t'

/-- Character class of the JavaScript regex `\w`: ASCII letters, digits and
underscore. -/
def wordChar (c : Char) : Bool :=
  c.isAlpha || c.isDigit || c = '_'

/-- Character class `[a-zA-Z_]`, the first character of an identifier. -/
def identStart (c : Char) : Bool :=
  c.isAlpha || c = '_'

/-! ## Sanitizer

Embedding of `stripVerilogComments` (the character-scan version from
src/parser/types.ts, lines 334-421): a single left-to-right scan carrying
one of five modes.  Characters inside line comments, block comments and
`(* ... *)` attributes are replaced by spaces (newlines are kept); string
literal characters are left untouched — the string mode only prevents
comment openers inside strings from being recognized.  The source's escape
test inside strings compares the single scanned character `ch` to the
two-character string literal written `'\\\\'` in the file, which is never
equal, so that branch is dead code and is not represented here. -/

/-- Scanner mode of `stripVerilogComments`: normal code, line comment,
block comment, attribute annotation, or string literal. -/
inductive SanMode where
  | code
  | lineC
  | blockC
  | attrC
  | strC
deriving DecidableEq

/-- One pass of the `stripVerilogComments` character scan. -/
def sanGo : SanMode → List Char → List Char
  | _, [] => []
  | .lineC, c :: cs =>
      if c = '\n' then '\n' :: sanGo .code cs
      else ' ' :: sanGo .lineC cs
  | .blockC, '*' :: '/' :: cs => ' ' :: ' ' :: sanGo .code cs
  | .blockC, c :: cs =>
      if c = '\n' then '\n' :: sanGo .blockC cs
      else ' ' :: sanGo .blockC cs
  | .attrC, '*' :: ')' :: cs => ' ' :: ' ' :: sanGo .code cs
  | .attrC, c :: cs =>
      if c = '\n' then '\n' :: sanGo .attrC cs
      else ' ' :: sanGo .attrC cs
  | .strC, c :: cs =>
      if c = '"' then '"' :: sanGo .code cs
      else c :: sanGo .strC cs
  | .code, '"' :: cs => '"' :: sanGo .strC cs
  | .code, '/' :: '/' :: cs => ' ' :: ' ' :: sanGo .lineC cs
  | .code, '/' :: '*' :: cs => ' ' :: ' ' :: sanGo .blockC cs
  | .code, '(' :: '*' :: cs => ' ' :: ' ' :: sanGo .attrC cs
  | .code, c :: cs => c :: sanGo .code cs

/-- Embedding of `stripVerilogComments` (types.ts:334-421). -/
def stripVerilogComments (t : List Char) : List Char :=
  sanGo .code t

/-- Split a text at the first occurrence of the character `x`: the part
before it and, if `x` occurs, the part after it. -/
def splitAt1 (x : Char) : List Char → List Char × Option (List Char)
  | [] => ([], none)
  | a :: r =>
      if a = x then ([], some r)
      else (a :: (splitAt1 x r).1, (splitAt1 x r).2)

/-- Split a text at the first adjacent occurrence of the two-character
delimiter `x` `y`, scanning left to right one character at a time (the
scan the sanitizer performs for the comment closers): the part before the
delimiter and, if it occurs, the part after it. -/
def splitAt2 (x y : Char) : List Char → List Char × Option (List Char)
  | [] => ([], none)
  | a :: r =>
      if a = x then
        match r with
        | [] => ([a], none)
        | b :: r2 =>
            if b = y then ([], some r2)
            else (a :: (splitAt2 x y r).1, (splitAt2 x y r).2)
      else (a :: (splitAt2 x y r).1, (splitAt2 x y r).2)

/-- Blank every character of a comment segment, keeping newlines. -/
def blankKeepNl (a : List Char) : List Char :=
  a.map (fun c => if c = '\n' then '\n' else ' ')

/-- Every output character of the sanitizer scan is either the input
character unchanged, or a space replacing a non-newline character; in
particular lengths and newline positions are preserved. -/
theorem sanGo_forall2 (m : SanMode) (t : List Char) :
    List.Forall₂ (fun a b => b = a ∨ (b = ' ' ∧ a ≠ '\n')) t (sanGo m t) := by
  induction m, t using sanGo.induct <;> simp_all [sanGo]

theorem sanGo_length (m : SanMode) (t : List Char) :
    (sanGo m t).length = t.length :=
  (sanGo_forall2 m t).length_eq.symm

/-- Pointwise consequence of `List.Forall₂` using `getD`. -/
theorem forall2_getD {r : Char → Char → Prop} :
    ∀ {l₁ l₂ : List Char}, List.Forall₂ r l₁ l₂ →
      ∀ i : Nat, i < l₁.length → r (l₁.getD i ' ') (l₂.getD i ' ') := by
  intro l₁ l₂ h
  induction h with
  | nil => intro i hi; simp at hi
  | cons hab htl ih =>
      intro i hi
      cases i with
      | zero => simpa using hab
      | succ j => simpa using ih j (by simpa using Nat.lt_of_succ_lt_succ hi)

/-- Exact behavior of the sanitizer scan in each non-code mode: a line
comment is blanked up to (not including) its terminating newline, a block
comment or attribute annotation is blanked (newlines kept) up to and
including its two-character closer, and a string literal is copied
unchanged up to and including its closing quote; in every case the scan
then continues in code mode. -/
theorem sanGo_spec (m : SanMode) (t : List Char) :
    sanGo m t =
      match m with
      | SanMode.code => sanGo SanMode.code t
      | SanMode.lineC =>
          ((splitAt1 '\n' t).1).map (fun _ => ' ') ++
            (match (splitAt1 '\n' t).2 with
             | none => []
             | some r => '\n' :: sanGo SanMode.code r)
      | SanMode.blockC =>
          blankKeepNl (splitAt2 '*' '/' t).1 ++
            (match (splitAt2 '*' '/' t).2 with
             | none => []
             | some r => ' ' :: ' ' :: sanGo SanMode.code r)
      | SanMode.attrC =>
          blankKeepNl (splitAt2 '*' ')' t).1 ++
            (match (splitAt2 '*' ')' t).2 with
             | none => []
             | some r => ' ' :: ' ' :: sanGo SanMode.code r)
      | SanMode.strC =>
          (splitAt1 '"' t).1 ++
            (match (splitAt1 '"' t).2 with
             | none => []
             | some r => '"' :: sanGo SanMode.code r) := by
  induction m, t using sanGo.induct <;>
    simp_all [sanGo, splitAt1, splitAt2, blankKeepNl]
  case case1 => rename_i m; cases m <;> rfl
  case case6 =>
    rename_i c cs hx h ih
    by_cases hc : c = '*'
    · cases cs with
      | nil => subst hc; simp [splitAt2]
      | cons b r2 =>
          have hb : ¬ b = '/' := by
            intro hb; exact hx r2 hc (by rw [hb])
          subst hc
          simp [splitAt2, hb, h]
    · simp [splitAt2, hc, h]
  case case9 =>
    rename_i c cs hx h ih
    by_cases hc : c = '*'
    · cases cs with
      | nil => subst hc; simp [splitAt2]
      | cons b r2 =>
          have hb : ¬ b = ')' := by
            intro hb; exact hx r2 hc (by rw [hb])
          subst hc
          simp [splitAt2, hb, h]
    · simp [splitAt2, hc, h]

/-- C3 (amended).  Layout: `stripVerilogComments` preserves the length of
the text, every character is either kept unchanged or replaced by a space
(never by a newline), and every newline of the input is still a newline at
the same offset of the output and vice versa.  Blanking: a `//`, `/*` or
`(*` opener seen in code mode is itself replaced by two spaces, the
characters of a line comment are blanked up to its terminating newline,
the characters of a block comment or attribute annotation are blanked
(newlines kept) up to and including the closing `*/` or `*)`, and the
characters of a string literal are copied UNCHANGED up to and including
the closing quote — the string mode only prevents comment openers inside
strings from being recognized.  (The original claim additionally asserted
that string literal characters are blanked; they are not, see the
counterexample.) -/
theorem c3_sanitizer_layout :
    (∀ t : List Char,
      (stripVerilogComments t).length = t.length ∧
      List.Forall₂ (fun a b => b = a ∨ (b = ' ' ∧ a ≠ '\n')) t (stripVerilogComments t) ∧
      ∀ i : Nat, ((stripVerilogComments t).getD i ' ' = '\n' ↔ t.getD i ' ' = '\n')) ∧
    (∀ r, stripVerilogComments ('/' :: '/' :: r) = ' ' :: ' ' :: sanGo SanMode.lineC r) ∧
    (∀ r, stripVerilogComments ('/' :: '*' :: r) = ' ' :: ' ' :: sanGo SanMode.blockC r) ∧
    (∀ r, stripVerilogComments ('(' :: '*' :: r) = ' ' :: ' ' :: sanGo SanMode.attrC r) ∧
    (∀ r, stripVerilogComments ('"' :: r) = '"' :: sanGo SanMode.strC r) ∧
    (∀ t, sanGo SanMode.lineC t =
      ((splitAt1 '\n' t).1).map (fun _ => ' ') ++
        (match (splitAt1 '\n' t).2 with
         | none => []
         | some r => '\n' :: stripVerilogComments r)) ∧
    (∀ t, sanGo SanMode.blockC t =
      blankKeepNl (splitAt2 '*' '/' t).1 ++
        (match (splitAt2 '*' '/' t).2 with
         | none => []
         | some r => ' ' :: ' ' :: stripVerilogComments r)) ∧
    (∀ t, sanGo SanMode.attrC t =
      blankKeepNl (splitAt2 '*' ')' t).1 ++
        (match (splitAt2 '*' ')' t).2 with
         | none => []
         | some r => ' ' :: ' ' :: stripVerilogComments r)) ∧
    (∀ t, sanGo SanMode.strC t =
      (splitAt1 '"' t).1 ++
        (match (splitAt1 '"' t).2 with
         | none => []
         | some r => '"' :: stripVerilogComments r)) := by
  refine ⟨?_, fun r => rfl, fun r => rfl, fun r => rfl, fun r => rfl,
    fun t => sanGo_spec SanMode.lineC t, fun t => sanGo_spec SanMode.blockC t,
    fun t => sanGo_spec SanMode.attrC t, fun t => sanGo_spec SanMode.strC t⟩
  intro t
  refine ⟨sanGo_length .code t, sanGo_forall2 .code t, ?_⟩
  intro i
  by_cases hi : i < t.length
  · have h := forall2_getD (sanGo_forall2 .code t) i hi
    rcases h with h | ⟨hsp, hnl⟩
    · rw [stripVerilogComments, h]
    · rw [stripVerilogComments, hsp]
      constructor
      · intro hcontra; exact absurd hcontra (by decide)
      · intro hcontra; exact absurd hcontra hnl
  · have h1 : t.length ≤ i := Nat.le_of_not_lt hi
    have h2 : (stripVerilogComments t).length ≤ i := by
      rw [stripVerilogComments, sanGo_length]; exact h1
    rw [List.getD_eq_default _ _ h1, List.getD_eq_default _ _ h2]

/-- C3 (counterexample).  On the input `x = "ab";` the sanitizer is the
identity: the characters of the string literal `"ab"` (for instance the
`a` at offset 5) are NOT replaced by spaces, contradicting the claim that
every character of a string literal is blanked. -/
theorem c3_counterexample :
    stripVerilogComments ("x = \"ab\";".toList) = "x = \"ab\";".toList ∧
    ("x = \"ab\";".toList).getD 5 ' ' = 'a' ∧
    ¬ ((stripVerilogComments ("x = \"ab\";".toList)).getD 5 ' ' = ' ') := by
  decide

/-! ## Preprocessor

Embedding of `preprocessVerilog` (types.ts:423-508).  The source walks the
text by offsets, handling one `\n`-terminated line at a time and blanking
the characters of directive lines and of lines in inactive regions (never
the newline itself); this is exactly a per-line map, so the embedding
splits on `'\n'`, processes each line, and rejoins with `'\n'`.  The
`defines` set is a list with JavaScript `Set` semantics (membership,
first-insertion order) and the conditional stack grows at the head (the
JavaScript array grows at the end; `stack[stack.length-1]` is the head
here). -/

/-- Whitespace trim of a JavaScript string (`.trim()`), restricted to
ASCII whitespace. -/
def jsTrim (l : List Char) : List Char :=
  ((l.dropWhile (fun c => jsWhite c)).reverse.dropWhile (fun c => jsWhite c)).reverse

/-- Match of the directive pattern `^\s*`+backtick+`(\w+)(.*)$` against one
line: optional leading whitespace, a backtick, at least one word character
(the directive name), and the rest of the line.  In JavaScript `.` does not
match a carriage return and `$` (no `m` flag) only matches at the very end,
so a line whose remainder contains `\r` (e.g. the line body of a CRLF
file) does NOT match the directive pattern. -/
def parseDirective (line : List Char) : Option (List Char × List Char) :=
  match line.dropWhile (fun c => jsWhite c) with
  | '`' :: rest =>
      let w := rest.takeWhile (fun c => wordChar c)
      if w.isEmpty then none
      else
        let rem := rest.dropWhile (fun c => wordChar c)
        if '\r' ∈ rem then none else some (w, rem)
  | _ => none

/-- Match of `^([a-zA-Z_]\w*)` : the leading identifier of a directive's
argument text, if any. -/
def leadIdent (l : List Char) : Option (List Char) :=
  match l with
  | c :: _ => if identStart c then some (l.takeWhile (fun d => wordChar d)) else none
  | [] => none

/-- JavaScript `Set.add`: append the name unless already present. -/
def addDefine (ds : List (List Char)) (n : List Char) : List (List Char) :=
  if n ∈ ds then ds else ds ++ [n]

/-- JavaScript `Set.delete`: remove all occurrences of the name. -/
def delDefine (ds : List (List Char)) (n : List Char) : List (List Char) :=
  ds.filter (fun m => m ≠ n)

/-- One conditional-compilation frame: whether the enclosing context was
active, whether this frame is currently active, and whether some branch of
this frame already fired. -/
structure PFrame where
  parentActive : Bool
  thisActive : Bool
  branchTaken : Bool
deriving DecidableEq

/-- Embedding of the `isActive` closure of `preprocessVerilog`. -/
def isActive : List PFrame → Bool
  | [] => true
  | f :: _ => f.thisActive

/-- Blanking of one line (`blankLine` in the source: every character of the
line becomes a space; the terminating newline is outside the range). -/
def blankLine (l : List Char) : List Char :=
  l.map (fun _ => ' ')

/-- Processing of a single line of `preprocessVerilog`: returns the updated
defines set, the updated conditional stack, and the output line. -/
def processLine (ds : List (List Char)) (stk : List PFrame) (line : List Char) :
    List (List Char) × List PFrame × List Char :=
  match parseDirective line with
  | some (dir, rest0) =>
      let rest := jsTrim rest0
      let out := blankLine line
      if dir = "define".toList then
        (if isActive stk then
            match leadIdent rest with
            | some n => addDefine ds n
            | none => ds
          else ds, stk, out)
      else if dir = "undef".toList then
        (if isActive stk then
            match leadIdent rest with
            | some n => delDefine ds n
            | none => ds
          else ds, stk, out)
      else if dir = "ifdef".toList || dir = "ifndef".toList then
        let isDefined : Bool :=
          match leadIdent rest with
          | some n => decide (n ∈ ds)
          | none => false
        let cond := if dir = "ifdef".toList then isDefined else !isDefined
        let pa := isActive stk
        (ds, ⟨pa, pa && cond, cond⟩ :: stk, out)
      else if dir = "elsif".toList then
        match stk with
        | [] => (ds, stk, out)
        | f :: r =>
            if !f.parentActive || f.branchTaken then
              (ds, ⟨f.parentActive, false, f.branchTaken⟩ :: r, out)
            else
              let condB : Bool :=
                match leadIdent rest with
                | some n => decide (n ∈ ds)
                | none => false
              (ds, ⟨f.parentActive, condB, condB⟩ :: r, out)
      else if dir = "else".toList then
        match stk with
        | [] => (ds, stk, out)
        | f :: r =>
            if !f.parentActive || f.branchTaken then
              (ds, ⟨f.parentActive, false, f.branchTaken⟩ :: r, out)
            else
              (ds, ⟨f.parentActive, true, true⟩ :: r, out)
      else if dir = "endif".toList then
        match stk with
        | [] => (ds, stk, out)
        | _ :: r => (ds, r, out)
      else
        (ds, stk, out)
  | none =>
      (ds, stk, if isActive stk then line else blankLine line)

/-- Processing of the whole line list, threading defines and the stack. -/
def ppGo (ds : List (List Char)) (stk : List PFrame) :
    List (List Char) → List (List Char) × List (List Char)
  | [] => ([], ds)
  | l :: ls =>
      let r := processLine ds stk l
      let rest := ppGo r.1 r.2.1 ls
      (r.2.2 :: rest.1, rest.2)

/-- Embedding of `preprocessVerilog` (types.ts:423-508): returns the
blanked text and the final defines set (the source mutates the set passed
in). -/
def preprocessVerilog (t : List Char) (ds : List (List Char)) :
    List Char × List (List Char) :=
  let r := ppGo ds [] (t.splitOn '\n')
  (List.intercalate ['\n'] r.1, r.2)

/-! ### C7: nested conditionals inside an inactive region never activate -/

/-- Invariant of the conditional stack that is maintained by line
processing: every frame records its parent's activity faithfully, and an
active frame always has an active parent. -/
def StackInv : List PFrame → Prop
  | [] => True
  | f :: r => f.parentActive = isActive r ∧ (f.thisActive = true → f.parentActive = true) ∧ StackInv r

theorem stackInv_inactive_mem {stk : List PFrame} {f : PFrame}
    (hinv : StackInv stk) (hmem : f ∈ stk) (hf : f.thisActive = false) :
    isActive stk = false := by
  induction stk with
  | nil => cases hmem
  | cons g r ih =>
      rcases hinv with ⟨hpa, hta, hr⟩
      rcases List.mem_cons.mp hmem with rfl | hmem'
      · simpa [isActive] using hf
      · have hr_inactive : isActive r = false := ih hr hmem'
        have hgp : g.parentActive = false := by rw [hpa, hr_inactive]
        have hgt : g.thisActive = false := by
          cases hg : g.thisActive
          · rfl
          · exact absurd (hta hg) (by simp [hgp])
        simpa [isActive] using hgt

theorem processLine_inv (ds : List (List Char)) (stk : List PFrame) (line : List Char)
    (hinv : StackInv stk) : StackInv (processLine ds stk line).2.1 := by
  unfold processLine
  cases h : parseDirective line with
  | none => simpa using hinv
  | some dr =>
      obtain ⟨dir, rest⟩ := dr
      simp only
      split
      · simpa using hinv
      · split
        · simpa using hinv
        · split
          · -- push of an ifdef/ifndef frame
            refine ⟨rfl, ?_, hinv⟩
            intro h'
            have h2 := h'
            simp only [Bool.and_eq_true] at h2
            exact h2.1
          · split
            · -- elsif
              split
              · simpa using hinv
              · rename_i f r
                rcases hinv with ⟨hpa, hta, hr⟩
                split
                · exact ⟨hpa, by simp, hr⟩
                · rename_i hcond
                  refine ⟨hpa, ?_, hr⟩
                  intro _
                  have : f.parentActive = true := by
                    cases hp : f.parentActive
                    · rw [hp] at hcond; simp at hcond
                    · rfl
                  exact this
            · split
              · -- else
                split
                · simpa using hinv
                · rename_i f r
                  rcases hinv with ⟨hpa, hta, hr⟩
                  split
                  · exact ⟨hpa, by simp, hr⟩
                  · rename_i hcond
                    refine ⟨hpa, ?_, hr⟩
                    intro _
                    cases hp : f.parentActive
                    · rw [hp] at hcond; simp at hcond
                    · rfl
              · split
                · -- endif
                  split
                  · simpa using hinv
                  · exact hinv.2.2
                · simpa using hinv

theorem processLine_blankOut (ds : List (List Char)) (stk : List PFrame) (line : List Char)
    (hact : isActive stk = false) : (processLine ds stk line).2.2 = blankLine line := by
  unfold processLine
  cases h : parseDirective line with
  | none => simp [hact]
  | some dr =>
      obtain ⟨dir, rest⟩ := dr
      simp only
      split <;> try rfl
      split <;> try rfl
      split <;> try rfl
      split
      · split <;> [rfl; (split <;> rfl)]
      · split
        · split <;> [rfl; (split <;> rfl)]
        · split
          · split <;> rfl
          · rfl

/-- C7.  A conditional frame opened by an `ifdef`/`ifndef` while the
enclosing context is inactive is itself inactive regardless of its own
condition (first conjunct); an `elsif`/`else` on a frame whose parent
context is inactive never activates it (second conjunct); the stack
invariant is preserved by every line (third conjunct); and while any frame
of the invariant-respecting stack is inactive — in particular everywhere
strictly inside an inactive region — every line is blanked in the output
(fourth conjunct). -/
theorem c7_nested_inactive :
    (∀ (ds : List (List Char)) (stk : List PFrame) (line : List Char) dir rest,
        parseDirective line = some (dir, rest) →
        (dir = "ifdef".toList ∨ dir = "ifndef".toList) → isActive stk = false →
        ∃ c, (processLine ds stk line).2.1 = ⟨false, false, c⟩ :: stk) ∧
    (∀ (ds : List (List Char)) (f : PFrame) (r : List PFrame) (line : List Char) dir rest,
        parseDirective line = some (dir, rest) →
        (dir = "elsif".toList ∨ dir = "else".toList) → f.parentActive = false →
        ∃ b, (processLine ds (f :: r) line).2.1 = ⟨false, false, b⟩ :: r) ∧
    (∀ (ds : List (List Char)) (stk : List PFrame) (line : List Char),
        StackInv stk → StackInv (processLine ds stk line).2.1) ∧
    (∀ (ds : List (List Char)) (stk : List PFrame) (line : List Char) (f : PFrame),
        StackInv stk → f ∈ stk → f.thisActive = false →
        (processLine ds stk line).2.2 = blankLine line) := by
  refine ⟨?_, ?_, processLine_inv, ?_⟩
  · intro ds stk line dir rest h hdir hact
    rcases hdir with rfl | rfl
    · refine ⟨(match leadIdent (jsTrim rest) with
        | some n => decide (n ∈ ds)
        | none => false), ?_⟩
      simp +decide [processLine, h, hact]
    · refine ⟨!(match leadIdent (jsTrim rest) with
        | some n => decide (n ∈ ds)
        | none => false), ?_⟩
      simp +decide [processLine, h, hact]
  · intro ds f r line dir rest h hdir hpa
    rcases hdir with rfl | rfl <;>
      exact ⟨f.branchTaken, by simp +decide [processLine, h, hpa]⟩
  · intro ds stk line f hinv hmem hf
    exact processLine_blankOut ds stk line (stackInv_inactive_mem hinv hmem hf)

/-- C7 (witness).  Concrete instantiation: with `FOO` defined, an
`ifdef FOO` opened under an inactive frame is pushed inactive even though
its condition holds; an `else` under an inactive parent stays inactive; the
invariant holds after a plain line; and a plain line under an inactive
frame is blanked. -/
theorem c7_nested_inactive_witness :
    (∃ c, (processLine [("FOO".toList)] [⟨true, false, false⟩] ("`ifdef FOO".toList)).2.1 =
      ⟨false, false, c⟩ :: [⟨true, false, false⟩]) ∧
    (∃ b, (processLine [("FOO".toList)] [⟨false, false, true⟩, ⟨true, false, false⟩]
        ("`else".toList)).2.1 = ⟨false, false, b⟩ :: [⟨true, false, false⟩]) ∧
    StackInv (processLine [("FOO".toList)] [⟨true, false, false⟩] ("  wire w;".toList)).2.1 ∧
    (processLine [("FOO".toList)] [⟨true, false, false⟩] ("  wire w;".toList)).2.2 =
      blankLine ("  wire w;".toList) := by
  have hinv0 : StackInv [(⟨true, false, false⟩ : PFrame)] :=
    ⟨rfl, fun h => rfl, trivial⟩
  refine ⟨?_, ?_, ?_, ?_⟩
  · exact c7_nested_inactive.1 _ _ _ "ifdef".toList " FOO".toList (by decide) (Or.inl rfl) (by decide)
  · exact c7_nested_inactive.2.1 _ ⟨false, false, true⟩ _ _ "else".toList [] (by decide)
      (Or.inr rfl) rfl
  · exact c7_nested_inactive.2.2.1 _ _ _ hinv0
  · exact c7_nested_inactive.2.2.2 _ _ _ ⟨true, false, false⟩ hinv0 (List.Mem.head _) rfl

/-! ## Text scanning primitives

Index-based helpers over `List Char` texts mirroring the JavaScript string
operations used by the extractor (`indexOf`, slicing, character classes at
an index).  Out-of-range reads yield the NUL character, which belongs to no
character class used here, matching the `undefined`-comparison behavior of
out-of-range JavaScript index accesses. -/

/-- Character at an index (NUL when out of range). -/
def charAt (t : List Char) (i : Nat) : Char :=
  t.getD i '\x00'

/-- First index `≥ i` whose character fails `p` (or the length of `t`). -/
def skipFrom (p : Char → Bool) (t : List Char) (i : Nat) : Nat :=
  i + ((t.drop i).takeWhile p).length

/-- Slice `[a, b)` of a text. -/
def slice (t : List Char) (a b : Nat) : List Char :=
  (t.drop a).take (b - a)

/-- Literal occurrence of `lit` at index `i`. -/
def litAt (t : List Char) (i : Nat) (lit : List Char) : Bool :=
  decide ((t.drop i).take lit.length = lit)

/-- JavaScript `indexOf(c, i)`: first occurrence of the character `c` at an
index `≥ i`, as an `Option` (the source uses `-1` for absence). -/
def indexOfFrom (t : List Char) (c : Char) (i : Nat) : Option Nat :=
  match ((t.drop i).findIdx? (fun d => d = c)) with
  | some j => some (i + j)
  | none => none

/-- JavaScript `indexOf(needle, start)` for substrings. -/
def indexOfSubFrom (hay needle : List Char) (start : Nat) : Option Nat :=
  (List.range (hay.length + 1)).find? (fun i => decide (start ≤ i) && litAt hay i needle)

/-- Length of the `\w*` run starting at index `i`. -/
def wordRunLen (t : List Char) (i : Nat) : Nat :=
  ((t.drop i).takeWhile (fun c => wordChar c)).length

/-- Trailing-whitespace trim (JavaScript `trimEnd`). -/
def jsTrimEnd (l : List Char) : List Char :=
  (l.reverse.dropWhile (fun c => jsWhite c)).reverse

/-- Inner loop of `findMatchingParen`: walks the bounded segment carrying
the absolute index and the parenthesis depth (an integer: the source lets
it go negative on a stray close). -/
def fmpGo : List Char → Nat → Int → Option Nat
  | [], _, _ => none
  | c :: cs, i, depth =>
      if c = '(' then fmpGo cs (i + 1) (depth + 1)
      else if c = ')' then
        (if depth - 1 = 0 then some i else fmpGo cs (i + 1) (depth - 1))
      else fmpGo cs (i + 1) depth

/-- Embedding of `findMatchingParen` (types.ts:623-637): scans from
`openIndex` up to and including `maxIndex` (clipped to the text length),
counting parenthesis depth, and returns the index where the depth returns
to zero. -/
def findMatchingParen (t : List Char) (openIndex maxIndex : Nat) : Option Nat :=
  fmpGo ((t.drop openIndex).take (maxIndex + 1 - openIndex)) openIndex 0

/-! ## Offset to position conversion

Embedding of `getLineStarts` / `offsetToPosition` (types.ts:748-789): a
table of line-start offsets and a binary search over it.  The loop is
written with explicit fuel; the top-level wrapper passes fuel exceeding the
table length, which dominates the iteration count of the loop (each
iteration shrinks `high - low` by at least one). -/

/-- Line/column position (0-based, as `vscode.Position`). -/
structure Pos where
  line : Nat
  col : Nat
deriving DecidableEq

/-- Successor offsets of all newlines, starting the count at `i`. -/
def nlSuccs : List Char → Nat → List Nat
  | [], _ => []
  | c :: cs, i => if c = '\n' then (i + 1) :: nlSuccs cs (i + 1) else nlSuccs cs (i + 1)

/-- Embedding of `getLineStarts`' table: offset 0 plus the offset after
every newline. -/
def lineStartsOf (t : List Char) : List Nat :=
  0 :: nlSuccs t 0

/-- Binary-search loop of `offsetToPosition` (types.ts:748-768).  `mid` is
`Math.floor((low + high) / 2)`, which is the integer floor division `/`;
the source returns `(mid, 0)` on an exact hit and otherwise, after the
loop, the line `max 0 (low - 1)` with the column `offset -
lineStarts[line]`. -/
def bsearchAux (starts : List Nat) (offset : Nat) : Nat → Int → Int → Pos
  | 0, low, _ =>
      ⟨(max 0 (low - 1)).toNat, offset - starts.getD (max 0 (low - 1)).toNat 0⟩
  | fuel + 1, low, high =>
      if low ≤ high then
        if starts.getD ((low + high) / 2).toNat 0 = offset then ⟨((low + high) / 2).toNat, 0⟩
        else if starts.getD ((low + high) / 2).toNat 0 < offset then
          bsearchAux starts offset fuel ((low + high) / 2 + 1) high
        else bsearchAux starts offset fuel low ((low + high) / 2 - 1)
      else
        ⟨(max 0 (low - 1)).toNat, offset - starts.getD (max 0 (low - 1)).toNat 0⟩

/-- Embedding of the binary-search `offsetToPosition` (types.ts:748-768),
with the memo table of `getLineStarts` recomputed (the pure equivalent of
the single-slot cache; see the C9 theorems). -/
def offsetToPosition (t : List Char) (offset : Nat) : Pos :=
  let starts := lineStartsOf t
  bsearchAux starts offset (starts.length + 1) 0 ((starts.length : Int) - 1)

/-! ## Structural extractor

Embedding of the module / port / instance extraction of
src/parser/types.ts (lines 510-745).  The anchored global regexes
(`moduleRegex`, `instRegex`) are unfolded: a `^`-anchored pattern under the
`m` flag can only match at a line start, and the `g`-loop resumes searching
at the end of the previous match, so both loops become a walk over the
line-start table carrying the `lastIndex` position. -/

/-- Port declaration extracted from a module header. -/
structure PortInfoP where
  direction : String
  name : List Char
  rangeText : Option (List Char)
  loc : Pos
deriving DecidableEq

/-- Named port binding `.portName(expr)` of an instantiation. -/
structure PortBindingP where
  portName : List Char
  expr : List Char
  loc : Pos
deriving DecidableEq

/-- Instance reference: instantiated type, instance name, location, ordered
bindings. -/
structure InstanceRefP where
  moduleName : List Char
  instanceName : List Char
  loc : Pos
  bindings : List PortBindingP
deriving DecidableEq

/-- Parsed module: name, file identity, definition position, instances and
ports (`definitionRange` in the source is the degenerate range at the
module keyword's position). -/
structure ParsedModuleP where
  name : List Char
  uriKey : String
  defPos : Pos
  instances : List InstanceRefP
  ports : List PortInfoP
deriving DecidableEq

/-- Identifier `[a-zA-Z_]\w*` starting exactly at index `i`: its characters
and its end index. -/
def matchIdentAt (t : List Char) (i : Nat) : Option (List Char × Nat) :=
  if i < t.length ∧ identStart (charAt t i) then
    some (slice t i (i + wordRunLen t i), i + wordRunLen t i)
  else none

/-- Match of `^[ \t]*module\s+([a-zA-Z_]\w*)` at the line start `p`:
returns the module name and the end offset of the match (`bodyStart`). -/
def matchModuleHeaderAt (t : List Char) (p : Nat) : Option (List Char × Nat) :=
  let q := skipFrom (fun c => horizWhite c) t p
  if litAt t q ("module".toList) then
    let r := q + 6
    let s := skipFrom (fun c => jsWhite c) t r
    if r < s then
      match matchIdentAt t s with
      | some (name, e) => some (name, e)
      | none => none
    else none
  else none

/-- Walk of the `g`-loop of `moduleRegex`: try every line start at or after
the current `lastIndex`; a successful match moves `lastIndex` to its end.
Returns `(name, start, bodyStart)` triples. -/
def collectModulesGo (t : List Char) : List Nat → Nat → List (List Char × Nat × Nat)
  | [], _ => []
  | p :: ps, last =>
      if p < last then collectModulesGo t ps last
      else
        match matchModuleHeaderAt t p with
        | some (name, e) => (name, p, e) :: collectModulesGo t ps e
        | none => collectModulesGo t ps last

def collectModules (t : List Char) : List (List Char × Nat × Nat) :=
  collectModulesGo t (lineStartsOf t) 0

/-- Search of `\bendmodule\b` (or any word) from an index: first occurrence
of the literal whose neighbors are not word characters. -/
def findWordFrom (t : List Char) (w : List Char) (start : Nat) : Option Nat :=
  (List.range (t.length + 1)).find? (fun i =>
    decide (start ≤ i) && litAt t i w &&
    (decide (i = 0) || !wordChar (charAt t (i - 1))) &&
    (decide (t.length ≤ i + w.length) || !wordChar (charAt t (i + w.length))))

/-- Backtracking tail of the optional parameter group
`#\s*\([^;]*\)` followed by `\s*\(`: the greedy `[^;]*` tries the closing
parentheses inside the semicolon-free run from right to left until the
continuation matches; returns the end of the whole match (the offset just
after the final open parenthesis). -/
def parenCloseBacktrack (t : List Char) (start : Nat) : Option Nat :=
  let z := (indexOfFrom t ';' start).getD t.length
  let cands := ((List.range z).filter (fun j => decide (start ≤ j) && decide (charAt t j = ')'))).reverse
  match cands.find? (fun j =>
      let w := skipFrom (fun c => jsWhite c) t (j + 1)
      decide (w < t.length) && decide (charAt t w = '(')) with
  | some j => some (skipFrom (fun c => jsWhite c) t (j + 1) + 1)
  | none => none

/-- Core of the instantiation pattern
`([a-zA-Z_]\w*)\s+([a-zA-Z_]\w*)\s*(?:#\s*\([^;]*\))?\s*\(` starting at
`x`: type name, instance name, and the end offset of the match.  When the
optional `#(...)` group is present but fails (or its continuation fails),
the regex falls back to skipping the group, which then requires `(` at the
position of the `#` — impossible — so the whole match fails. -/
def instCoreAt (t : List Char) (x : Nat) : Option (List Char × List Char × Nat) :=
  match matchIdentAt t x with
  | none => none
  | some (name1, x1) =>
      let x2 := skipFrom (fun c => jsWhite c) t x1
      if x2 = x1 then none
      else
        match matchIdentAt t x2 with
        | none => none
        | some (name2, x2e) =>
            let x3 := skipFrom (fun c => jsWhite c) t x2e
            if x3 < t.length ∧ charAt t x3 = '#' then
              let x4 := skipFrom (fun c => jsWhite c) t (x3 + 1)
              if x4 < t.length ∧ charAt t x4 = '(' then
                match parenCloseBacktrack t (x4 + 1) with
                | some matchEnd => some (name1, name2, matchEnd)
                | none => none
              else none
            else if x3 < t.length ∧ charAt t x3 = '(' then
              some (name1, name2, x3 + 1)
            else none

/-- Instantiation pattern match at the line start `p`, including the
optional label group `(?:[a-zA-Z_]\w*\s*:\s*)?` which is tried greedily
first and dropped on failure of the remainder. -/
def matchInstAt (t : List Char) (p : Nat) : Option (List Char × List Char × Nat) :=
  let q := skipFrom (fun c => horizWhite c) t p
  let withLabel :=
    match matchIdentAt t q with
    | none => none
    | some (_, e1) =>
        let c1 := skipFrom (fun c => jsWhite c) t e1
        if c1 < t.length ∧ charAt t c1 = ':' then
          instCoreAt t (skipFrom (fun c => jsWhite c) t (c1 + 1))
        else none
  match withLabel with
  | some r => some r
  | none => instCoreAt t q

/-- The fixed keyword denylist of `parseInstantiationsInText`
(types.ts:581-595). -/
def instKeywords : List (List Char) :=
  ["if", "else", "begin", "end", "case", "casex", "casez",
   "for", "while", "repeat", "forever",
   "always", "always_ff", "always_comb", "always_latch",
   "assign", "deassign", "force", "release",
   "wire", "reg", "logic", "tri", "tri0", "tri1",
   "module", "endmodule",
   "function", "endfunction",
   "task", "endtask",
   "generate", "endgenerate",
   "initial", "final",
   "parameter", "localparam",
   "specify", "endspecify",
   "primitive", "endprimitive"].map String.toList

/-- Modelled from the spec: the binding parser for `.portName(expr)` forms
inside an instantiation's parenthesized argument list.  The repository
declares `PortBinding` (types.ts:19-23) and `findDirectConnections`
consumes `InstanceRef.bindings`, but the code of the parser that fills the
bindings is not under src/ (the shipped `parseInstantiationsInText` pushes
instances without bindings).  Per the spec: "Port bindings are parsed from
the parenthesized argument list using the form `.portName(expr)`; `expr` is
recorded as raw trimmed text (not re-parsed) together with its location."
Scan of the balanced argument-list region: at each `.` followed by an
identifier, optional whitespace and a balanced `( ... )`, record the
binding and continue after its close; otherwise advance one character. -/
def pbGo (t : List Char) (close : Nat) : Nat → Nat → List PortBindingP
  | 0, _ => []
  | fuel + 1, i =>
      if close ≤ i then []
      else if charAt t i = '.' then
        match matchIdentAt t (i + 1) with
        | none => pbGo t close fuel (i + 1)
        | some (pname, e1) =>
            let a := skipFrom (fun c => jsWhite c) t e1
            if a < close ∧ charAt t a = '(' then
              match findMatchingParen t a close with
              | some j =>
                  ⟨pname, jsTrim (slice t (a + 1) j), offsetToPosition t i⟩ ::
                    pbGo t close fuel (j + 1)
              | none => pbGo t close fuel (i + 1)
            else pbGo t close fuel (i + 1)
      else pbGo t close fuel (i + 1)

/-- Modelled from the spec: bindings of the argument list whose opening
parenthesis is at `openParen` (the final `(` of the instantiation match);
the region extends to the matching close, or to the end of the text when
unbalanced. -/
def parseBindingsAt (t : List Char) (openParen : Nat) : List PortBindingP :=
  let close := (findMatchingParen t openParen t.length).getD t.length
  pbGo t close (t.length + 1) (openParen + 1)

/-- The `g`-loop of `instRegex` over the line starts: `lastIndex` begins at
`bodyStart`, a match at or beyond `bodyEnd` stops the loop, a match whose
either identifier (lowercased) is a keyword is skipped, and any other match
yields an `InstanceRef` (with the spec-modelled bindings attached). -/
def parseInstGo (t : List Char) (bodyEnd : Nat) : List Nat → Nat → List InstanceRefP
  | [], _ => []
  | p :: ps, last =>
      if p < last then parseInstGo t bodyEnd ps last
      else
        match matchInstAt t p with
        | none => parseInstGo t bodyEnd ps last
        | some (n1, n2, e) =>
            if bodyEnd ≤ p then []
            else if (n1.map Char.toLower) ∈ instKeywords ∨ (n2.map Char.toLower) ∈ instKeywords then
              parseInstGo t bodyEnd ps e
            else
              ⟨n1, n2, offsetToPosition t p, parseBindingsAt t (e - 1)⟩ ::
                parseInstGo t bodyEnd ps e

/-- Embedding of `parseInstantiationsInText` (types.ts:569-621), with the
spec-modelled bindings attached to each instance. -/
def parseInstantiationsInText (t : List Char) (bodyStart bodyEnd : Nat) : List InstanceRefP :=
  parseInstGo t bodyEnd (lineStartsOf t) bodyStart

/-- Direction keywords of the port-direction pattern
`^(input|output|inout|ref)\b(.*)$/i`, in alternation order. -/
def dirKeywords : List String :=
  ["input", "output", "inout", "ref"]

/-- Case-insensitive literal occurrence at the start of a fragment. -/
def lowerLitAt (l : List Char) (lit : List Char) : Bool :=
  decide ((l.take lit.length).map Char.toLower = lit)

/-- Match of `^(input|output|inout|ref)\b(.*)$/i` against a trimmed
fragment: one direction keyword as a case-insensitive prefix followed by a
word boundary; `.*$` (no `s` or `m` flag) additionally requires the
remainder to contain no line terminator. -/
def dirMatch (trimmed : List Char) : Option (String × List Char) :=
  match dirKeywords.find? (fun d =>
      lowerLitAt trimmed d.toList &&
      (decide (trimmed.length = d.length) || !wordChar (charAt trimmed d.length))) with
  | none => none
  | some d =>
      let rest := trimmed.drop d.length
      if ('\n' ∈ rest) ∨ ('\r' ∈ rest) then none
      else some (d, rest)

/-- Match of `([a-zA-Z_]\w*)\s*$`: the last identifier of the fragment —
the trailing maximal `\w` run of the whitespace-stripped text, captured
from its first `[a-zA-Z_]` character. -/
def lastIdent (l : List Char) : Option (List Char) :=
  let s := jsTrimEnd l
  if s.isEmpty then none
  else
    let run := (s.reverse.takeWhile (fun c => wordChar c)).reverse
    if run.isEmpty then none
    else
      match run.dropWhile (fun c => !identStart c) with
      | [] => none
      | suffix => some suffix

/-- Match of `(\[[^\]]+\])`: the leftmost `[` that is followed, after at
least one non-`]` character, by a `]`; returns the bracketed slice. -/
def rangeMatch (l : List Char) : Option (List Char) :=
  match (List.range l.length).find? (fun p =>
      decide (charAt l p = '[') &&
      (match indexOfFrom l ']' (p + 1) with
       | some j => decide (p + 2 ≤ j)
       | none => false)) with
  | none => none
  | some p =>
      match indexOfFrom l ']' (p + 1) with
      | some j => some (slice l p (j + 1))
      | none => none

/-- Processing of one comma-separated fragment of the port list, carrying
the running `searchOffset`; mirrors the loop body of
`parseModulePortsFromHeader` (types.ts:687-742). -/
def portOfPart (t : List Char) (headerInner : List Char) (innerStart : Nat)
    (part : List Char) (searchOffset : Nat) : Option PortInfoP × Nat :=
  let trimmed := jsTrim part
  if trimmed.isEmpty then (none, searchOffset + part.length + 1)
  else
    let dm := dirMatch trimmed
    let direction := match dm with
      | some (d, _) => d
      | none => "unknown"
    let rest := match dm with
      | some (_, r) => jsTrim r
      | none => trimmed
    let nameSource0 := if rest.isEmpty then trimmed else rest
    let nameSource :=
      match indexOfFrom nameSource0 '=' 0 with
      | some e => jsTrimEnd (nameSource0.take e)
      | none => nameSource0
    match lastIdent nameSource with
    | none => (none, searchOffset + part.length + 1)
    | some name =>
        let rangeText := rangeMatch nameSource
        let localIndex := (indexOfSubFrom headerInner part searchOffset).getD searchOffset
        let nameOffsetInPart := (indexOfSubFrom part name 0).getD 0
        let globalOffset := innerStart + localIndex + nameOffsetInPart
        (some ⟨direction, name, rangeText, offsetToPosition t globalOffset⟩,
          localIndex + part.length + 1)

/-- Fold of `portOfPart` over the comma-split fragments. -/
def portsFromParts (t : List Char) (headerInner : List Char) (innerStart : Nat) :
    List (List Char) → Nat → List PortInfoP
  | [], _ => []
  | part :: parts, searchOffset =>
      match portOfPart t headerInner innerStart part searchOffset with
      | (some port, so') => port :: portsFromParts t headerInner innerStart parts so'
      | (none, so') => portsFromParts t headerInner innerStart parts so'

/-- Embedding of `parseModulePortsFromHeader` (types.ts:639-745). -/
def parseModulePortsFromHeader (t : List Char) (bodyStart : Nat) : List PortInfoP :=
  match indexOfFrom t ';' bodyStart with
  | none => []
  | some headerEnd =>
      let si := min headerEnd (skipFrom (fun c => jsWhite c) t bodyStart)
      let scanIndex : Option Nat :=
        if si < headerEnd ∧ charAt t si = '#' then
          match indexOfFrom t '(' si with
          | some paramOpen =>
              if paramOpen < headerEnd then
                match findMatchingParen t paramOpen headerEnd with
                | some paramClose => some (paramClose + 1)
                | none => none
              else some si
          | none => some si
        else some si
      match scanIndex with
      | none => []
      | some si2 =>
          match indexOfFrom t '(' si2 with
          | none => []
          | some parenStart =>
              if headerEnd ≤ parenStart then []
              else
                match findMatchingParen t parenStart headerEnd with
                | none => []
                | some parenEnd =>
                    if headerEnd < parenEnd then []
                    else
                      let innerStart := parenStart + 1
                      let headerInner := slice t innerStart parenEnd
                      portsFromParts t headerInner innerStart (headerInner.splitOn ',') 0

/-- Per-module assembly: `bodyEnd` is the nearer of the next `endmodule`
token and the next module header (types.ts:535-565). -/
def buildMods (t : List Char) (uriKey : String) :
    List (List Char × Nat × Nat) → List ParsedModuleP
  | [] => []
  | (name, start, bodyStart) :: rest =>
      let bodyEnd0 :=
        match findWordFrom t ("endmodule".toList) bodyStart with
        | some e => e
        | none => t.length
      let bodyEnd :=
        match rest.head? with
        | some (_, nextStart, _) => if nextStart < bodyEnd0 then nextStart else bodyEnd0
        | none => bodyEnd0
      { name := name, uriKey := uriKey, defPos := offsetToPosition t start,
        instances := parseInstantiationsInText t bodyStart bodyEnd,
        ports := parseModulePortsFromHeader t bodyStart } :: buildMods t uriKey rest

/-- Embedding of `parseModulesAndInstancesInFile` (types.ts:510-567):
sanitize, optionally preprocess, then extract all modules. -/
def parseModulesAndInstancesInFile (source : List Char) (uriKey : String)
    (defines : List (List Char)) (enablePre : Bool) : List ParsedModuleP :=
  let sanitized := stripVerilogComments source
  let pre := if enablePre then (preprocessVerilog sanitized defines).1 else sanitized
  buildMods pre uriKey (collectModules pre)

/-- Design index: flat module list plus the two JavaScript-`Map`-ordered
lookup structures. -/
structure ParsedDesignP where
  modules : List ParsedModuleP
  modulesByName : List (List Char × List ParsedModuleP)
  modulesByFile : List (String × List ParsedModuleP)
deriving DecidableEq

/-- JavaScript `Map` multimap update: appending to an existing key keeps
its position; a new key goes to the end. -/
def mmInsert {κ ν : Type} [DecidableEq κ] (m : List (κ × List ν)) (k : κ)
    (v : ν) : List (κ × List ν) :=
  match m with
  | [] => [(k, [v])]
  | (k', l) :: rest =>
      if k' = k then (k', l ++ [v]) :: rest else (k', l) :: mmInsert rest k v

/-- Aggregation loop of `parseFiles` (types.ts:306-329). -/
def buildMaps : List ParsedModuleP →
    List (List Char × List ParsedModuleP) × List (String × List ParsedModuleP) →
    List (List Char × List ParsedModuleP) × List (String × List ParsedModuleP)
  | [], acc => acc
  | m :: ms, (byName, byFile) => buildMaps ms (mmInsert byName m.name m, mmInsert byFile m.uriKey m)

/-- Embedding of `TsRegexParserBackend.parseFiles` (types.ts:271-330) with
the file reads replaced by the given `(uri, text)` pairs.  Faithful to the
source, every file is parsed with `new Set(activeDefines)` — a fresh copy
of the caller-supplied defines — and the caller's set is never updated, so
no define state crosses from one file to the next. -/
def parseFilesPure (files : List (String × List Char)) (defines : List (List Char))
    (enablePre : Bool) : ParsedDesignP :=
  let mods := files.flatMap (fun f => parseModulesAndInstancesInFile f.2 f.1 defines enablePre)
  let maps := buildMaps mods ([], [])
  { modules := mods, modulesByName := maps.1, modulesByFile := maps.2 }

/-! ### C1: the structural extractor on the spec's example -/

/-- The exact input text of claim C1 (a single line). -/
def c1Input : List Char :=
  "module m(input a, output [7:0] b); sub u1(.a(a), .b(net1)); endmodule".toList

/-- The C1 input with the instantiation starting its own line. -/
def c1InputMultiline : List Char :=
  ("module m(input a, output [7:0] b);\n  sub u1(.a(a), .b(net1));\nendmodule\n").toList

/-- C1 (counterexample).  On the claim's exact one-line input the extractor
reports module `m` with the two claimed ports but NO instance at all — not
the claimed single instance `u1` of `sub`: the instantiation pattern is
line-start anchored (`^[ \t]*...` with the `m` flag) and its search starts
at the module header's end, which is mid-line on this input, so
`sub u1(...)` never matches. -/
theorem c1_counterexample :
    (parseFilesPure [("file.v", c1Input)] [] true).modules.map (fun m => m.name) =
      ["m".toList] ∧
    (parseFilesPure [("file.v", c1Input)] [] true).modules.map
        (fun m => m.ports.map (fun p => (p.direction, p.name, p.rangeText))) =
      [[("input", "a".toList, none), ("output", "b".toList, some ("[7:0]".toList))]] ∧
    (parseFilesPure [("file.v", c1Input)] [] true).modules.map (fun m => m.instances) =
      [[]] := by
  decide

/-- C1 (amended).  With the instantiation on its own line, the extractor
reports exactly one module `m` with exactly the two claimed ports (`a`
input, `b` output with range text `[7:0]`) and exactly one instance `u1` of
type `sub` whose ordered bindings are `a` bound to `a` and `b` bound to
`net1` (bindings per the spec-modelled binding parser). -/
theorem c1_extractor :
    (parseFilesPure [("file.v", c1InputMultiline)] [] true).modules.map
      (fun m => (m.name,
        m.ports.map (fun p => (p.direction, p.name, p.rangeText)),
        m.instances.map (fun i => (i.moduleName, i.instanceName,
          i.bindings.map (fun b => (b.portName, b.expr)))))) =
    [("m".toList,
      [("input", "a".toList, none), ("output", "b".toList, some ("[7:0]".toList))],
      [("sub".toList, "u1".toList,
        [("a".toList, "a".toList), ("b".toList, "net1".toList)])])] := by
  rfl

/-! ### C2: defines across sequential file parses -/

/-- Second file of the C2 counterexample: a module guarded by
`ifdef FOO`. -/
def c2FileB : List Char :=
  ("`ifdef FOO\nmodule m1(); endmodule\n`endif\n").toList

/-- C2 (counterexample).  A `define FOO` in an earlier file is NOT seen by
an `ifdef FOO` in a later file of the same scan: the scan of both files
with empty caller defines extracts no module at all, while the same later
file scanned with `FOO` supplied by the caller does extract `m1` — so the
guarded region was blanked only because the earlier file's define never
propagated.  `parseFiles` gives every file a fresh copy of the
caller-supplied set (`new Set(activeDefines)`, types.ts:287) and never
writes back. -/
theorem c2_counterexample :
    (parseFilesPure [("a.v", ("`define FOO\n").toList), ("b.v", c2FileB)] [] true).modules.map
        (fun m => m.name) = [] ∧
    (parseFilesPure [("b.v", c2FileB)] ["FOO".toList] true).modules.map
        (fun m => m.name) = ["m1".toList] := by
  decide

/-- C2 (amended).  Define effects do not propagate across files: every file
is parsed against an isolated copy of the caller-supplied defines, so a
scan over a concatenation of file lists yields exactly the concatenation of
the modules of the two separate scans run with the same caller defines. -/
theorem c2_defines_isolated :
    ∀ (fs1 fs2 : List (String × List Char)) (ds : List (List Char)) (ep : Bool),
      (parseFilesPure (fs1 ++ fs2) ds ep).modules =
        (parseFilesPure fs1 ds ep).modules ++ (parseFilesPure fs2 ds ep).modules := by
  intro fs1 fs2 ds ep
  simp [parseFilesPure]

/-! ## Direct-connection analyzer

Embedding of `findDirectConnections` (extension.ts:698-757): locate the
first module named `parentModule` containing both instance names, build per
instance a multimap from whitespace-normalized net expression to bindings
(skipping empty keys), and emit one match per combination of bindings
sharing a key. -/

/-- One emitted connection (`ConnectionInfo`): the display label and the
location of the first instance's binding. -/
structure ConnInfo where
  label : List Char
  loc : Pos
deriving DecidableEq

/-- The `normalize` closure: `expr.replace(/\s+/g, '')` removes every
whitespace character. -/
def normalizeExpr (e : List Char) : List Char :=
  e.filter (fun c => !jsWhite c)

/-- The `mapBindings` closure: multimap from nonempty normalized expression
to the bindings using it, in JavaScript `Map` insertion order. -/
def mapBindings (bs : List PortBindingP) : List (List Char × List PortBindingP) :=
  bs.foldl (fun m b =>
    let key := normalizeExpr b.expr
    if key.isEmpty then m else mmInsert m key b) []

/-- JavaScript `Map.get` over the association-list maps. -/
def lookupKey {ν : Type} (k : List Char) : List (List Char × ν) → Option ν
  | [] => none
  | (k', v) :: rest => if k' = k then some v else lookupKey k rest

/-- Inner emission loop: one `ConnectionInfo` per binding of the second
instance, for a fixed binding of the first. -/
def emitForA (aName bName : List Char) (pa : PortBindingP) :
    List PortBindingP → List ConnInfo
  | [] => []
  | pb :: pbs =>
      ⟨aName ++ '.' :: pa.portName ++ (" - ".toList) ++ bName ++ '.' :: pb.portName,
        pa.loc⟩ :: emitForA aName bName pa pbs

/-- Outer emission loop over the first instance's bindings. -/
def emitPairs (aName bName : List Char) :
    List PortBindingP → List PortBindingP → List ConnInfo
  | [], _ => []
  | pa :: pas, portsB => emitForA aName bName pa portsB ++ emitPairs aName bName pas portsB

/-- Iteration over the first instance's multimap entries, looking each key
up in the second instance's multimap. -/
def crossGo (aName bName : List Char) (mapB : List (List Char × List PortBindingP)) :
    List (List Char × List PortBindingP) → List ConnInfo
  | [] => []
  | (k, portsA) :: rest =>
      match lookupKey k mapB with
      | none => crossGo aName bName mapB rest
      | some portsB => emitPairs aName bName portsA portsB ++ crossGo aName bName mapB rest

/-- Match emission phase of `findDirectConnections`, given the two located
instances. -/
def crossConnections (iA iB : InstanceRefP) : List ConnInfo :=
  crossGo iA.instanceName iB.instanceName (mapBindings iB.bindings) (mapBindings iA.bindings)

/-- Instance-location phase of `findDirectConnections`: the first module
named `parentModule` that contains both instance names wins; `find` takes
the first instance with each name. -/
def findInstancePairGo (instanceA instanceB : List Char) :
    List ParsedModuleP → Option (InstanceRefP × InstanceRefP)
  | [] => none
  | m :: rest =>
      match m.instances.find? (fun i => i.instanceName = instanceA),
            m.instances.find? (fun i => i.instanceName = instanceB) with
      | some a, some b => some (a, b)
      | _, _ => findInstancePairGo instanceA instanceB rest

def findInstancePair (design : ParsedDesignP) (parentModule instanceA instanceB : List Char) :
    Option (InstanceRefP × InstanceRefP) :=
  findInstancePairGo instanceA instanceB
    ((lookupKey parentModule design.modulesByName).getD [])

/-- Embedding of `findDirectConnections` (extension.ts:698-757). -/
def findDirectConnections (design : ParsedDesignP) (parentModule instanceA instanceB : List Char) :
    List ConnInfo :=
  match findInstancePair design parentModule instanceA instanceB with
  | none => []
  | some (iA, iB) => crossConnections iA iB

/-- Number of binding pairs — one from each side — whose normalized
connected expressions are equal and nonempty. -/
def countMatches (A B : List PortBindingP) : Nat :=
  (A.map (fun pa =>
    let k := normalizeExpr pa.expr
    if k.isEmpty then 0 else B.countP (fun pb => decide (normalizeExpr pb.expr = k)))).sum

theorem emitForA_length (aName bName : List Char) (pa : PortBindingP)
    (pbs : List PortBindingP) :
    (emitForA aName bName pa pbs).length = pbs.length := by
  induction pbs with
  | nil => rfl
  | cons pb pbs ih => simp [emitForA, ih]

theorem emitPairs_length (aName bName : List Char) (pas pbs : List PortBindingP) :
    (emitPairs aName bName pas pbs).length = pas.length * pbs.length := by
  induction pas with
  | nil => simp [emitPairs]
  | cons pa pas ih =>
      simp [emitPairs, emitForA_length, ih, Nat.succ_mul]
      omega

theorem mmInsert_lenLookup (m : List (List Char × List PortBindingP)) (k key : List Char)
    (b : PortBindingP) :
    ((lookupKey k (mmInsert m key b)).getD []).length =
      ((lookupKey k m).getD []).length + (if key = k then 1 else 0) := by
  induction m with
  | nil =>
      by_cases hk : key = k
      · subst hk; simp [mmInsert, lookupKey]
      · simp [mmInsert, lookupKey, hk]
  | cons e rest ih =>
      obtain ⟨k', l⟩ := e
      by_cases hk' : k' = key
      · subst hk'
        by_cases hkk : k' = k
        · subst hkk; simp [mmInsert, lookupKey]
        · simp [mmInsert, lookupKey, hkk]
      · by_cases hkk : k' = k
        · subst hkk
          have : ¬(key = k') := fun h => hk' h.symm
          simp [mmInsert, lookupKey, hk', this]
        · simp [mmInsert, lookupKey, hk', hkk, ih]

/-- Step function of `mapBindings` as a named function for the fold
lemmas. -/
def mbStep (m : List (List Char × List PortBindingP)) (b : PortBindingP) :
    List (List Char × List PortBindingP) :=
  let key := normalizeExpr b.expr
  if key.isEmpty then m else mmInsert m key b

theorem mapBindings_eq_foldl (bs : List PortBindingP) :
    mapBindings bs = bs.foldl mbStep [] := rfl

theorem lenLookup_foldl (k : List Char) (hk : ¬k.isEmpty) :
    ∀ (bs : List PortBindingP) (acc : List (List Char × List PortBindingP)),
      ((lookupKey k (bs.foldl mbStep acc)).getD []).length =
        ((lookupKey k acc).getD []).length +
          bs.countP (fun pb => decide (normalizeExpr pb.expr = k)) := by
  intro bs
  induction bs with
  | nil => intro acc; simp
  | cons b rest ih =>
      intro acc
      rw [List.foldl_cons, ih]
      by_cases hb : (normalizeExpr b.expr).isEmpty
      · have hbk : ¬(normalizeExpr b.expr = k) := by
          intro h; rw [h] at hb; exact hk hb
        simp [mbStep, hb, List.countP_cons, hbk]
      · rw [List.countP_cons]
        have hstep : mbStep acc b = mmInsert acc (normalizeExpr b.expr) b := by
          simp [mbStep, hb]
        rw [hstep, mmInsert_lenLookup]
        by_cases hbk : normalizeExpr b.expr = k
        · simp [hbk]; omega
        · simp [hbk]

theorem crossGo_mmInsert (aName bName : List Char)
    (mapB : List (List Char × List PortBindingP)) (key : List Char) (v : PortBindingP) :
    ∀ m : List (List Char × List PortBindingP),
      (crossGo aName bName mapB (mmInsert m key v)).length =
        (crossGo aName bName mapB m).length +
          ((lookupKey key mapB).getD []).length := by
  intro m
  induction m with
  | nil =>
      cases h : lookupKey key mapB with
      | none => simp [mmInsert, crossGo, h]
      | some pbs => simp [mmInsert, crossGo, h, emitPairs, emitForA_length]
  | cons e rest ih =>
      obtain ⟨k', l⟩ := e
      by_cases hk : k' = key
      · subst hk
        cases h : lookupKey k' mapB with
        | none => simp [mmInsert, crossGo, h]
        | some pbs =>
            simp [mmInsert, crossGo, h, emitPairs_length, Nat.succ_mul]
            omega
      · cases h : lookupKey k' mapB with
        | none => simp [mmInsert, hk, crossGo, h, ih]
        | some pbs => simp [mmInsert, hk, crossGo, h, ih]; omega

theorem crossGo_foldl (aName bName : List Char) (B : List PortBindingP) :
    ∀ (A : List PortBindingP) (acc : List (List Char × List PortBindingP)),
      (crossGo aName bName (mapBindings B) (A.foldl mbStep acc)).length =
        (crossGo aName bName (mapBindings B) acc).length + countMatches A B := by
  intro A
  induction A with
  | nil => intro acc; simp [countMatches]
  | cons a rest ih =>
      intro acc
      rw [List.foldl_cons, ih]
      by_cases ha : (normalizeExpr a.expr).isEmpty
      · have ha' : normalizeExpr a.expr = [] := by simpa [List.isEmpty_iff] using ha
        have hstep : mbStep acc a = acc := by simp [mbStep, ha]
        simp [hstep, countMatches, ha']
      · have ha' : ¬(normalizeExpr a.expr = []) := by simpa [List.isEmpty_iff] using ha
        have hstep : mbStep acc a = mmInsert acc (normalizeExpr a.expr) a := by
          simp [mbStep, ha]
        rw [hstep, crossGo_mmInsert]
        have hlen :
            ((lookupKey (normalizeExpr a.expr) (mapBindings B)).getD []).length =
              B.countP (fun pb => decide (normalizeExpr pb.expr = normalizeExpr a.expr)) := by
          have h0 := lenLookup_foldl (normalizeExpr a.expr) ha B []
          simpa [mapBindings_eq_foldl, lookupKey] using h0
        rw [hlen]
        simp [countMatches, ha']
        omega

theorem crossConnections_length (iA iB : InstanceRefP) :
    (crossConnections iA iB).length = countMatches iA.bindings iB.bindings := by
  have h := crossGo_foldl iA.instanceName iB.instanceName iB.bindings iA.bindings []
  simpa [crossConnections, mapBindings_eq_foldl, crossGo] using h

/-- C8 (amended).  If a module named `parentModule` contains both instance
names (first such module, first instance of each name), the analyzer emits
exactly one `ConnectionInfo` per pair of bindings — one from each instance
— whose connected expressions are equal AND nonempty after removing all
whitespace (the original claim omitted nonemptiness; see the
counterexample); if no single module of that name contains both instance
names — in particular when the two instances live in different parent
modules — the result is empty. -/
theorem c8_connection_matches :
    (∀ (design : ParsedDesignP) (p a b : List Char) (iA iB : InstanceRefP),
        findInstancePair design p a b = some (iA, iB) →
        (findDirectConnections design p a b).length =
          countMatches iA.bindings iB.bindings) ∧
    (∀ (design : ParsedDesignP) (p a b : List Char),
        findInstancePair design p a b = none →
        findDirectConnections design p a b = []) := by
  constructor
  · intro design p a b iA iB h
    simp [findDirectConnections, h, crossConnections_length]
  · intro design p a b h
    simp [findDirectConnections, h]

/-- First instance of the C8 counterexample: one binding whose connected
expression is whitespace only. -/
def c8InstA : InstanceRefP :=
  ⟨"sub".toList, "u1".toList, ⟨1, 2⟩, [⟨"p".toList, " ".toList, ⟨1, 10⟩⟩]⟩

/-- Second instance of the C8 counterexample. -/
def c8InstB : InstanceRefP :=
  ⟨"sub".toList, "u2".toList, ⟨2, 2⟩, [⟨"q".toList, "  ".toList, ⟨2, 10⟩⟩]⟩

/-- Parent module of the C8 counterexample. -/
def c8Mod : ParsedModuleP :=
  ⟨"M".toList, "m.v", ⟨0, 0⟩, [c8InstA, c8InstB], []⟩

def c8Design : ParsedDesignP :=
  ⟨[c8Mod], [("M".toList, [c8Mod])], [("m.v", [c8Mod])]⟩

/-- C8 (counterexample).  Both instances are found together in module `M`
and they carry bindings whose connected expressions are equal after
removing all whitespace (both normalize to the empty expression), yet the
analyzer emits NO match for that pair — the source skips empty normalized
keys — contradicting the claim's "one ConnectionMatch for every pair of
bindings whose connected expressions are equal after removing all
whitespace". -/
theorem c8_counterexample :
    findInstancePair c8Design ("M".toList) ("u1".toList) ("u2".toList) =
      some (c8InstA, c8InstB) ∧
    normalizeExpr (" ".toList) = normalizeExpr ("  ".toList) ∧
    findDirectConnections c8Design ("M".toList) ("u1".toList) ("u2".toList) = [] := by
  decide

/-- Witness design with a real shared net. -/
def c8WInstA : InstanceRefP :=
  ⟨"s".toList, "u1".toList, ⟨1, 0⟩, [⟨"clk".toList, "sysclk".toList, ⟨1, 5⟩⟩]⟩

def c8WInstB : InstanceRefP :=
  ⟨"s".toList, "u2".toList, ⟨2, 0⟩, [⟨"clk".toList, "sysclk".toList, ⟨2, 5⟩⟩]⟩

def c8WMod : ParsedModuleP :=
  ⟨"M".toList, "m.v", ⟨0, 0⟩, [c8WInstA, c8WInstB], []⟩

def c8WDesign : ParsedDesignP :=
  ⟨[c8WMod], [("M".toList, [c8WMod])], [("m.v", [c8WMod])]⟩

/-- Witness design with the instances in different parent modules. -/
def c8WModP : ParsedModuleP :=
  ⟨"P1".toList, "p1.v", ⟨0, 0⟩, [c8WInstA], []⟩

def c8WModQ : ParsedModuleP :=
  ⟨"P2".toList, "p2.v", ⟨0, 0⟩, [c8WInstB], []⟩

def c8WDesign2 : ParsedDesignP :=
  ⟨[c8WModP, c8WModQ],
   [("P1".toList, [c8WModP]), ("P2".toList, [c8WModQ])],
   [("p1.v", [c8WModP]), ("p2.v", [c8WModQ])]⟩

/-- C8 (witness).  Two instances of module `M` both bound to
`.clk(sysclk)` produce exactly one match; two instances that live in
different parent modules (`P1` and `P2`) produce none. -/
theorem c8_connection_matches_witness :
    (findDirectConnections c8WDesign ("M".toList) ("u1".toList) ("u2".toList)).length =
      countMatches c8WInstA.bindings c8WInstB.bindings ∧
    countMatches c8WInstA.bindings c8WInstB.bindings = 1 ∧
    findDirectConnections c8WDesign2 ("P1".toList) ("u1".toList) ("u2".toList) = [] := by
  refine ⟨c8_connection_matches.1 c8WDesign _ _ _ c8WInstA c8WInstB (by decide),
    by decide,
    c8_connection_matches.2 c8WDesign2 ("P1".toList) ("u1".toList) ("u2".toList) (by decide)⟩

/-! ### C10: whitespace-only expressions never contribute -/

theorem foldl_mbStep_filter :
    ∀ (bs : List PortBindingP) (acc : List (List Char × List PortBindingP)),
      bs.foldl mbStep acc =
        (bs.filter (fun b => !(normalizeExpr b.expr).isEmpty)).foldl mbStep acc := by
  intro bs
  induction bs with
  | nil => intro acc; rfl
  | cons b rest ih =>
      intro acc
      by_cases hb : (normalizeExpr b.expr).isEmpty
      · have hstep : mbStep acc b = acc := by simp [mbStep, hb]
        simp [List.filter_cons, hb, hstep, ih]
      · simp [List.filter_cons, hb, ih]

theorem mapBindings_filter (bs : List PortBindingP) :
    mapBindings bs = mapBindings (bs.filter (fun b => !(normalizeExpr b.expr).isEmpty)) := by
  rw [mapBindings_eq_foldl, mapBindings_eq_foldl, foldl_mbStep_filter]

theorem lookupKey_mmInsert_ne {ν : Type} (m : List (List Char × List ν)) (k key : List Char)
    (v : ν) (hne : key ≠ k) :
    lookupKey k (mmInsert m key v) = lookupKey k m := by
  induction m with
  | nil => simp [mmInsert, lookupKey, hne]
  | cons e rest ih =>
      obtain ⟨k', l⟩ := e
      by_cases hk' : k' = key
      · subst hk'
        have : ¬(k' = k) := fun h => hne (h ▸ rfl)
        simp [mmInsert, lookupKey, this]
      · by_cases hkk : k' = k
        · subst hkk; simp [mmInsert, lookupKey, hk']
        · simp [mmInsert, lookupKey, hk', hkk, ih]

theorem lookupKey_empty_foldl :
    ∀ (bs : List PortBindingP) (acc : List (List Char × List PortBindingP)),
      lookupKey [] acc = none → lookupKey [] (bs.foldl mbStep acc) = none := by
  intro bs
  induction bs with
  | nil => intro acc h; simpa using h
  | cons b rest ih =>
      intro acc h
      rw [List.foldl_cons]
      apply ih
      by_cases hb : (normalizeExpr b.expr).isEmpty
      · have hstep : mbStep acc b = acc := by simp [mbStep, hb]
        rw [hstep]; exact h
      · have hstep : mbStep acc b = mmInsert acc (normalizeExpr b.expr) b := by
          simp [mbStep, hb]
        rw [hstep, lookupKey_mmInsert_ne]
        · exact h
        · intro hcontra
          rw [hcontra] at hb
          simp at hb

/-- C10.  A port binding whose connected expression is empty or whitespace
only never contributes a match: the emission phase is unchanged when all
such bindings are removed from either instance, and the multimap built by
`mapBindings` never contains the empty normalized expression as a key. -/
theorem c10_empty_exprs :
    (∀ iA iB : InstanceRefP,
        crossConnections iA iB =
          crossConnections
            ⟨iA.moduleName, iA.instanceName, iA.loc,
              iA.bindings.filter (fun b => !(normalizeExpr b.expr).isEmpty)⟩
            ⟨iB.moduleName, iB.instanceName, iB.loc,
              iB.bindings.filter (fun b => !(normalizeExpr b.expr).isEmpty)⟩) ∧
    (∀ bs : List PortBindingP, lookupKey [] (mapBindings bs) = none) := by
  constructor
  · intro iA iB
    show crossGo _ _ _ _ = crossGo _ _ _ _
    rw [mapBindings_filter iA.bindings, mapBindings_filter iB.bindings]
  · intro bs
    rw [mapBindings_eq_foldl]
    exact lookupKey_empty_foldl bs [] rfl

/-! ## Hierarchy roots

Embedding of `VerilogHierarchyProvider.recomputeRoots` (extension.ts:
368-389): collect every instantiated type name, then every module name not
among them (a JavaScript `Set`, i.e. first-occurrence dedup), sorted with
the default lexicographic string sort. -/

/-- All type names instantiated anywhere in the design. -/
def instantiatedNames (design : ParsedDesignP) : List (List Char) :=
  design.modules.flatMap (fun m => m.instances.map (fun i => i.moduleName))

/-- First-occurrence deduplication (`Array.from` of a JavaScript `Set`). -/
def dedupFirst (seen : List (List Char)) : List (List Char) → List (List Char)
  | [] => []
  | x :: xs => if x ∈ seen then dedupFirst seen xs else x :: dedupFirst (x :: seen) xs

/-- Embedding of `recomputeRoots`: module names instantiated nowhere, in
lexicographic order. -/
def recomputeRoots (design : ParsedDesignP) : List (List Char) :=
  let instantiated := instantiatedNames design
  let rootSet :=
    dedupFirst [] ((design.modules.map (fun m => m.name)).filter
      (fun n => decide (n ∉ instantiated)))
  List.insertionSort (fun a b => a ≤ b) rootSet

theorem dedupFirst_mem (name : List Char) :
    ∀ (l seen : List (List Char)),
      name ∈ dedupFirst seen l ↔ (name ∈ l ∧ name ∉ seen) := by
  intro l
  induction l with
  | nil => intro seen; simp [dedupFirst]
  | cons x xs ih =>
      intro seen
      by_cases hx : x ∈ seen
      · simp only [dedupFirst, if_pos hx, ih]
        constructor
        · rintro ⟨h1, h2⟩; exact ⟨List.mem_cons_of_mem _ h1, h2⟩
        · rintro ⟨h1, h2⟩
          rcases List.mem_cons.mp h1 with rfl | h1'
          · exact absurd hx h2
          · exact ⟨h1', h2⟩
      · simp only [dedupFirst, if_neg hx, List.mem_cons, ih]
        constructor
        · rintro (rfl | ⟨h1, h2⟩)
          · exact ⟨Or.inl rfl, hx⟩
          · exact ⟨Or.inr h1, fun hc => h2 (Or.inr hc)⟩
        · rintro ⟨rfl | h1, h2⟩
          · exact Or.inl rfl
          · by_cases hxx : name = x
            · exact Or.inl hxx
            · exact Or.inr ⟨h1, by simp [hxx, h2]⟩

/-- C6.  A name is in the computed root set iff it is the name of some
module of the index and no `InstanceRef` anywhere in the index instantiates
it; the root list is sorted lexicographically; and recomputation on the
same design yields the same result. -/
theorem c6_roots : ∀ (design : ParsedDesignP) (name : List Char),
    (name ∈ recomputeRoots design ↔
      (name ∈ design.modules.map (fun m => m.name) ∧
        name ∉ instantiatedNames design)) ∧
    List.Sorted (fun a b => a ≤ b) (recomputeRoots design) ∧
    recomputeRoots design = recomputeRoots design := by
  intro design name
  refine ⟨?_, ?_, rfl⟩
  · rw [recomputeRoots]
    rw [List.Perm.mem_iff (List.perm_insertionSort _ _)]
    rw [dedupFirst_mem, List.mem_filter]
    simp
  · exact List.sorted_insertionSort _ _

/-! ## Hierarchy builder

Embedding of `VerilogHierarchyProvider.update` / `createNodeForModule`
(extension.ts:318-348, 391-502).  Tree nodes carry the resolved module
name, the display label, the two navigation locations and the children;
the `kind` field records which construction path built the node (the
normal expansion, the depth-limit terminal, the cycle terminal, or the
external terminal) — the source distinguishes these paths only by the
label text it generates and by the statistics it increments.  The
`instanceName`/`parentModuleName`/`contextValue` display metadata of the
source nodes is not represented.  The recursion of `createNodeForModule`
descends only while `depth < maxDepth` with `depth + 1`, so the explicit
fuel, instantiated as `maxDepth.toNat + 1` at the roots, dominates it; the
fuel-zero case replicates the branches reachable when `depth ≥ maxDepth`
and the fuel-independence theorem below shows the embedding does not
depend on the fuel. -/

/-- Construction path of a hierarchy node. -/
inductive HKind where
  | normal
  | depthLimit
  | cycle
  | external
deriving DecidableEq

/-- Build statistics (`this.stats`). -/
structure HStats where
  nodeCount : Nat
  maxDepthSeen : Nat
  depthLimitHits : Nat
  cycleHits : Nat
deriving DecidableEq

/-- Hierarchy tree node. -/
inductive HNode where
  | mk (moduleName : List Char) (label : List Char) (kind : HKind)
      (defLoc : Option Pos) (instLoc : Option Pos) (children : List HNode)

def HNode.moduleName : HNode → List Char
  | .mk n _ _ _ _ _ => n

def HNode.label : HNode → List Char
  | .mk _ l _ _ _ _ => l

def HNode.kind : HNode → HKind
  | .mk _ _ k _ _ _ => k

def HNode.children : HNode → List HNode
  | .mk _ _ _ _ _ c => c

/-- The `childNode.label = ...` overwrite applied after a child returns. -/
def HNode.setLabel : HNode → List Char → HNode
  | .mk n _ k d i c, l => .mk n l k d i c

/-- Per-target loop of `createNodeForModule` (extension.ts:464-479): one
child per resolved target definition, with the label overwritten to
`instanceName: typeName` whatever node the recursion returned. -/
def buildTargets (recNode : List Char → Option Pos → Option Pos → HStats → HNode × HStats)
    (instName : List Char) (instLoc : Option Pos) :
    List ParsedModuleP → HStats → List HNode × HStats
  | [], st => ([], st)
  | tmod :: ts, st =>
      let r := recNode tmod.name instLoc (some tmod.defPos) st
      let child := r.1.setLabel (instName ++ ": ".toList ++ tmod.name)
      let rest := buildTargets recNode instName instLoc ts r.2
      (child :: rest.1, rest.2)

/-- Per-instance loop of `createNodeForModule` (extension.ts:442-480): a
type name with no matching definition yields a terminal external node;
otherwise the duplicate-resolution strategy picks the targets. -/
def buildChildren (design : ParsedDesignP) (strat : String)
    (recNode : List Char → Option Pos → Option Pos → HStats → HNode × HStats)
    (parentName : List Char) :
    List InstanceRefP → HStats → List HNode × HStats
  | [], st => ([], st)
  | inst :: insts, st =>
      let targets := (lookupKey inst.moduleName design.modulesByName).getD []
      if targets.isEmpty then
        let node := HNode.mk inst.moduleName
          (inst.instanceName ++ ": ".toList ++ inst.moduleName ++ " (external)".toList)
          .external none (some inst.loc) []
        let rest := buildChildren design strat recNode parentName insts
          {st with nodeCount := st.nodeCount + 1}
        (node :: rest.1, rest.2)
      else
        let resolved := if strat = "first" then targets.take 1 else targets
        let r := buildTargets recNode inst.instanceName (some inst.loc) resolved st
        let rest := buildChildren design strat recNode parentName insts r.2
        (r.1 ++ rest.1, rest.2)

/-- Embedding of `createNodeForModule` (extension.ts:391-502), with
explicit fuel. -/
def createNode (design : Option ParsedDesignP) (maxDepth : Int) (strat : String) :
    Nat → List Char → List (List Char) → Option Pos → Option Pos → Nat → HStats →
      HNode × HStats
  | 0, name, _, instLoc, defLoc, depth, st =>
      let st1 := {st with maxDepthSeen := max st.maxDepthSeen depth}
      match design with
      | none => (HNode.mk name name .normal none none [], st1)
      | some _ =>
          (HNode.mk name (name ++ " (depth limit)".toList) .depthLimit defLoc instLoc [],
            {st1 with depthLimitHits := st1.depthLimitHits + 1, nodeCount := st1.nodeCount + 1})
  | fuel + 1, name, visited, instLoc, defLoc, depth, st =>
      let st1 := {st with maxDepthSeen := max st.maxDepthSeen depth}
      match design with
      | none => (HNode.mk name name .normal none none [], st1)
      | some d =>
          if maxDepth ≤ (depth : Int) then
            (HNode.mk name (name ++ " (depth limit)".toList) .depthLimit defLoc instLoc [],
              {st1 with depthLimitHits := st1.depthLimitHits + 1, nodeCount := st1.nodeCount + 1})
          else if name ∈ visited then
            (HNode.mk name (name ++ " (cycle)".toList) .cycle none instLoc [],
              {st1 with cycleHits := st1.cycleHits + 1, nodeCount := st1.nodeCount + 1})
          else
            let newVisited := name :: visited
            let mods := (lookupKey name d.modulesByName).getD []
            let instances := mods.flatMap (fun m => m.instances)
            let primaryLocation :=
              match defLoc with
              | some l => some l
              | none =>
                  match mods.head? with
                  | some pm => some pm.defPos
                  | none => none
            let r := buildChildren d strat
              (fun nm il dl st' =>
                createNode design maxDepth strat fuel nm newVisited il dl (depth + 1) st')
              name instances st1
            (HNode.mk name name .normal primaryLocation instLoc r.1,
              {r.2 with nodeCount := r.2.nodeCount + 1})

/-- Fuel that dominates the recursion depth of `createNodeForModule` when
the recursion starts at depth 0. -/
def stdFuel (maxDepth : Int) : Nat :=
  maxDepth.toNat + 1

/-- Sequential root-node construction of `update` (extension.ts:338-340),
threading the statistics. -/
def buildRootNodesGo (createFn : List Char → HStats → HNode × HStats) :
    List (List Char) → HStats → List HNode × HStats
  | [], st => ([], st)
  | n :: ns, st =>
      let r := createFn n st
      let rest := buildRootNodesGo createFn ns r.2
      (r.1 :: rest.1, rest.2)

/-- Embedding of `VerilogHierarchyProvider.update` (extension.ts:318-348)
with explicit fuel: recompute roots (empty for a missing design), reset the
statistics, restrict to the configured top module if any, and build every
root tree. -/
def updateRootsFuel (design : Option ParsedDesignP) (maxDepth : Int) (strat : String)
    (topModule : Option (List Char)) (fuel : Nat) : List HNode × HStats :=
  let roots := match design with
    | none => []
    | some d => recomputeRoots d
  let rootList := match topModule with
    | some tm => roots.filter (fun r => decide (r = tm))
    | none => roots
  buildRootNodesGo (fun n st => createNode design maxDepth strat fuel n [] none none 0 st)
    rootList ⟨0, 0, 0, 0⟩

def updateRoots (design : Option ParsedDesignP) (maxDepth : Int) (strat : String)
    (topModule : Option (List Char)) : List HNode × HStats :=
  updateRootsFuel design maxDepth strat topModule (stdFuel maxDepth)

/-! ### C5: the direct top/mid cycle -/

/-- The two-file design of claim C5: `top` instantiates `mid` and `mid`
instantiates `top`. -/
def c5Design : ParsedDesignP :=
  parseFilesPure
    [("top.v", ("module top();\n  mid u_mid();\nendmodule\n").toList),
     ("mid.v", ("module mid();\n  top u_top();\nendmodule\n").toList)] [] true

/-- C5 (counterexample).  For the direct cycle `top` -> `mid` -> `top`,
BOTH modules are instantiated somewhere, so the computed root set is empty:
the hierarchy build produces NO tree rooted at `top` (even when `top` is
configured as the top module, which only filters the root set), and the
build statistics end with `cycleHits = 0` — contradicting the claim that
the tree rooted at `top` terminates with a cycle node and
`cycleHits >= 1`. -/
theorem c5_counterexample :
    c5Design.modules.map (fun m => (m.name, m.instances.map (fun i => i.moduleName))) =
      [("top".toList, ["mid".toList]), ("mid".toList, ["top".toList])] ∧
    (updateRoots (some c5Design) 100 "all" none).1 = [] ∧
    (updateRoots (some c5Design) 100 "all" none).2.cycleHits = 0 ∧
    (updateRoots (some c5Design) 100 "all" (some ("top".toList))).1 = [] := by
  exact ⟨rfl, rfl, rfl, rfl⟩

/-- The node construction of C5's amended claim: `createNodeForModule`
invoked directly on `top` (empty visited set, depth 0, fresh stats). -/
def c5TopBuild : HNode × HStats :=
  createNode (some c5Design) 100 "all" (stdFuel 100) ("top".toList) [] none none 0
    ⟨0, 0, 0, 0⟩

/-- C5 (amended).  Building the hierarchy node for `top` directly (as
`createNodeForModule` would for a root) terminates with a terminal
cycle-path node exactly at the reappearance of `top`
(`top` -> `u_mid: mid` -> childless cycle node for `top`; its label was
overwritten by the parent to `u_top: top`), and the accumulated statistics
satisfy `cycleHits = 1 >= 1`.  The automatic root computation itself yields
no roots for this design (see the counterexample). -/
theorem c5_cycle_node :
    c5TopBuild.1.moduleName = "top".toList ∧
    c5TopBuild.1.kind = HKind.normal ∧
    c5TopBuild.1.children.map (fun c => (c.moduleName, c.kind, c.label)) =
      [("mid".toList, HKind.normal, "u_mid: mid".toList)] ∧
    c5TopBuild.1.children.map (fun c =>
        c.children.map (fun g => (g.moduleName, g.kind, g.children.length, g.label))) =
      [[("top".toList, HKind.cycle, 0, "u_top: top".toList)]] ∧
    c5TopBuild.2.cycleHits = 1 := by
  exact ⟨rfl, rfl, rfl, rfl, rfl⟩

/-! ### C4: totality of the hierarchy build -/

mutual

/-- Well-formedness of a built hierarchy node: every node built by a
terminal path (depth-limit, cycle, external) has no children, recursively.
-/
def goodTree : HNode → Prop
  | .mk _ _ kind _ _ children => (kind ≠ HKind.normal → children = []) ∧ goodForest children

def goodForest : List HNode → Prop
  | [] => True
  | c :: cs => goodTree c ∧ goodForest cs

end

theorem goodForest_append (a b : List HNode) (ha : goodForest a) (hb : goodForest b) :
    goodForest (a ++ b) := by
  induction a with
  | nil => simpa using hb
  | cons c cs ih =>
      rw [goodForest] at ha
      rw [List.cons_append, goodForest]
      exact ⟨ha.1, ih ha.2⟩

theorem goodTree_setLabel (n : HNode) (l : List Char) (h : goodTree n) :
    goodTree (n.setLabel l) := by
  cases n with
  | mk nm lb k d i c => simpa [HNode.setLabel, goodTree] using h

theorem buildTargets_good (f : List Char → Option Pos → Option Pos → HStats → HNode × HStats)
    (instName : List Char) (il : Option Pos)
    (hf : ∀ nm il' dl' st', goodTree (f nm il' dl' st').1) :
    ∀ (ts : List ParsedModuleP) (st : HStats),
      goodForest (buildTargets f instName il ts st).1 := by
  intro ts
  induction ts with
  | nil => intro st; simp [buildTargets, goodForest]
  | cons tm ts ih =>
      intro st
      rw [buildTargets]
      rw [goodForest]
      exact ⟨goodTree_setLabel _ _ (hf _ _ _ _), ih _⟩

theorem buildChildren_good (d : ParsedDesignP) (strat : String)
    (f : List Char → Option Pos → Option Pos → HStats → HNode × HStats)
    (pname : List Char)
    (hf : ∀ nm il' dl' st', goodTree (f nm il' dl' st').1) :
    ∀ (insts : List InstanceRefP) (st : HStats),
      goodForest (buildChildren d strat f pname insts st).1 := by
  intro insts
  induction insts with
  | nil => intro st; simp [buildChildren, goodForest]
  | cons inst insts ih =>
      intro st
      rw [buildChildren]
      by_cases hT : ((lookupKey inst.moduleName d.modulesByName).getD []).isEmpty
      · simp only [hT, if_pos]
        rw [goodForest]
        refine ⟨?_, ih _⟩
        rw [goodTree]
        exact ⟨fun _ => rfl, trivial⟩
      · simp only [hT, if_neg, Bool.false_eq_true, not_false_eq_true]
        exact goodForest_append _ _ (buildTargets_good f _ _ hf _ _) (ih _)

theorem createNode_good (design : Option ParsedDesignP) (maxDepth : Int) (strat : String) :
    ∀ (fuel : Nat) (name : List Char) (visited : List (List Char))
      (il dl : Option Pos) (depth : Nat) (st : HStats),
      goodTree (createNode design maxDepth strat fuel name visited il dl depth st).1 := by
  intro fuel
  induction fuel with
  | zero =>
      intro name visited il dl depth st
      cases design with
      | none => exact ⟨fun h => absurd rfl h, trivial⟩
      | some d => exact ⟨fun _ => rfl, trivial⟩
  | succ f ih =>
      intro name visited il dl depth st
      cases design with
      | none => exact ⟨fun h => absurd rfl h, trivial⟩
      | some d =>
          by_cases hd : maxDepth ≤ (depth : Int)
          · simp only [createNode, if_pos hd]
            exact ⟨fun _ => rfl, trivial⟩
          · by_cases hv : name ∈ visited
            · simp only [createNode, if_neg hd, if_pos hv]
              exact ⟨fun _ => rfl, trivial⟩
            · simp only [createNode, if_neg hd, if_neg hv]
              refine ⟨fun h => absurd rfl h, ?_⟩
              exact buildChildren_good d strat _ name
                (fun nm il' dl' st' => ih nm (name :: visited) il' dl' (depth + 1) st') _ _

theorem buildRootNodesGo_good (createFn : List Char → HStats → HNode × HStats)
    (hf : ∀ nm st, goodTree (createFn nm st).1) :
    ∀ (roots : List (List Char)) (st : HStats) (n : HNode),
      n ∈ (buildRootNodesGo createFn roots st).1 → goodTree n := by
  intro roots
  induction roots with
  | nil => intro st n h; simp [buildRootNodesGo] at h
  | cons r rs ih =>
      intro st n h
      rw [buildRootNodesGo] at h
      rcases List.mem_cons.mp h with rfl | h'
      · exact hf _ _
      · exact ih _ n h'

theorem buildTargets_congr (f g : List Char → Option Pos → Option Pos → HStats → HNode × HStats)
    (h : ∀ nm il' dl' st', f nm il' dl' st' = g nm il' dl' st')
    (instName : List Char) (il : Option Pos) :
    ∀ (ts : List ParsedModuleP) (st : HStats),
      buildTargets f instName il ts st = buildTargets g instName il ts st := by
  intro ts
  induction ts with
  | nil => intro st; rfl
  | cons tm ts ih =>
      intro st
      rw [buildTargets, buildTargets, h, ih]

theorem buildChildren_congr (d : ParsedDesignP) (strat : String)
    (f g : List Char → Option Pos → Option Pos → HStats → HNode × HStats)
    (h : ∀ nm il' dl' st', f nm il' dl' st' = g nm il' dl' st') (pname : List Char) :
    ∀ (insts : List InstanceRefP) (st : HStats),
      buildChildren d strat f pname insts st = buildChildren d strat g pname insts st := by
  intro insts
  induction insts with
  | nil => intro st; rfl
  | cons inst insts ih =>
      intro st
      rw [buildChildren, buildChildren]
      by_cases hT : ((lookupKey inst.moduleName d.modulesByName).getD []).isEmpty
      · simp only [hT, if_pos, ih]
      · simp only [hT, if_neg, Bool.false_eq_true, not_false_eq_true,
          buildTargets_congr f g h, ih]

theorem createNode_fuel_eq (design : Option ParsedDesignP) (maxDepth : Int) (strat : String) :
    ∀ (fuel₁ fuel₂ : Nat) (name : List Char) (visited : List (List Char))
      (il dl : Option Pos) (depth : Nat) (st : HStats),
      maxDepth ≤ (depth : Int) + fuel₁ → maxDepth ≤ (depth : Int) + fuel₂ →
      createNode design maxDepth strat fuel₁ name visited il dl depth st =
        createNode design maxDepth strat fuel₂ name visited il dl depth st := by
  intro fuel₁
  induction fuel₁ with
  | zero =>
      intro fuel₂ name visited il dl depth st h₁ h₂
      have hd : maxDepth ≤ (depth : Int) := by simpa using h₁
      cases fuel₂ with
      | zero => rfl
      | succ f₂ =>
          cases design with
          | none => rfl
          | some d => simp only [createNode, if_pos hd]
  | succ f₁ ih =>
      intro fuel₂ name visited il dl depth st h₁ h₂
      cases fuel₂ with
      | zero =>
          have hd : maxDepth ≤ (depth : Int) := by simpa using h₂
          cases design with
          | none => rfl
          | some d => simp only [createNode, if_pos hd]
      | succ f₂ =>
          cases design with
          | none => rfl
          | some d =>
              by_cases hd : maxDepth ≤ (depth : Int)
              · simp only [createNode, if_pos hd]
              · by_cases hv : name ∈ visited
                · simp only [createNode, if_neg hd, if_pos hv]
                · have hrec : ∀ (nm : List Char) (il' dl' : Option Pos) (st' : HStats),
                      createNode (some d) maxDepth strat f₁ nm (name :: visited) il' dl'
                          (depth + 1) st' =
                        createNode (some d) maxDepth strat f₂ nm (name :: visited) il' dl'
                          (depth + 1) st' := by
                    intro nm il' dl' st'
                    apply ih
                    · push_cast
                      push_cast at h₁
                      omega
                    · push_cast
                      push_cast at h₂
                      omega
                  simp only [createNode, if_neg hd, if_neg hv]
                  rw [buildChildren_congr d strat _ _ hrec]

theorem buildRootNodesGo_congr (f g : List Char → HStats → HNode × HStats)
    (h : ∀ nm st, f nm st = g nm st) :
    ∀ (roots : List (List Char)) (st : HStats),
      buildRootNodesGo f roots st = buildRootNodesGo g roots st := by
  intro roots
  induction roots with
  | nil => intro st; rfl
  | cons r rs ih => intro st; rw [buildRootNodesGo, buildRootNodesGo, h, ih]

/-- C4.  The hierarchy build is total and failure-free: a missing design
yields the empty root forest (first conjunct); the fuel embedding of the
recursion is fuel-independent beyond the standard bound, i.e. the build
terminates with the same finite result however much further the recursion
is allowed to run (second conjunct); and in every built tree — over ANY
design, including ones with cycles, self-instantiation, duplicate module
names or unresolved instance types — every node constructed by a terminal
path (depth-limit, cycle, external) is a childless terminal node (third
conjunct). -/
theorem c4_hierarchy_total :
    (∀ (maxDepth : Int) (strat : String) (topM : Option (List Char)),
        (updateRoots none maxDepth strat topM).1 = []) ∧
    (∀ (design : Option ParsedDesignP) (maxDepth : Int) (strat : String)
        (topM : Option (List Char)) (k : Nat),
        updateRootsFuel design maxDepth strat topM (stdFuel maxDepth + k) =
          updateRoots design maxDepth strat topM) ∧
    (∀ (design : Option ParsedDesignP) (maxDepth : Int) (strat : String)
        (topM : Option (List Char)) (n : HNode),
        n ∈ (updateRoots design maxDepth strat topM).1 → goodTree n) := by
  refine ⟨?_, ?_, ?_⟩
  · intro maxDepth strat topM
    cases topM <;> rfl
  · intro design maxDepth strat topM k
    have hself : maxDepth ≤ (maxDepth.toNat : Int) := Int.self_le_toNat maxDepth
    unfold updateRoots updateRootsFuel
    apply buildRootNodesGo_congr
    intro nm st
    apply createNode_fuel_eq <;> simp only [stdFuel] <;> push_cast <;> omega
  · intro design maxDepth strat topM n hmem
    exact buildRootNodesGo_good _
      (fun nm st => createNode_good design maxDepth strat _ nm [] none none 0 st) _ _ n hmem

/-- C4 (witness).  Concrete instantiation of the three conjuncts: the
missing-design build is empty; extra fuel does not change the build of a
concrete design; the root tree built for that design (a module with two
unresolved instance types, hence two external terminals) is well formed. -/
theorem c4_hierarchy_total_witness :
    (updateRoots none 100 "all" none).1 = [] ∧
    updateRootsFuel (some c8WDesign) 100 "all" none (stdFuel 100 + 5) =
      updateRoots (some c8WDesign) 100 "all" none ∧
    goodTree ((updateRoots (some c8WDesign) 100 "all" none).1.headD
      (HNode.mk [] [] .normal none none [])) := by
  refine ⟨c4_hierarchy_total.1 100 "all" none,
    c4_hierarchy_total.2.1 (some c8WDesign) 100 "all" none 5,
    c4_hierarchy_total.2.2 (some c8WDesign) 100 "all" none _ ?_⟩
  exact List.Mem.head _

/-! ### C9: memoized binary-search conversion vs the naive linear scan

The naive `offsetToPosition` (tsRegexBackend.ts:301-314) walks the text
counting newlines; the backend in use (types.ts:748-789) converts through
the memoized line-start table and a binary search.  The single-slot cache
compares the query text to the cached text with `===`, which is VALUE
equality for JavaScript strings, so a hit returns the line starts of an
equal text. -/

/-- Loop of the naive `offsetToPosition` (tsRegexBackend.ts:301-314):
`i` is the absolute index, `stop` the offset bound; returns the line count
and the last line-start offset. -/
def linAux : List Char → Nat → Nat → Nat → Nat → Nat × Nat
  | [], _, _, line, lastStart => (line, lastStart)
  | c :: cs, i, stop, line, lastStart =>
      if i < stop then
        if c = '\n' then linAux cs (i + 1) stop (line + 1) (i + 1)
        else linAux cs (i + 1) stop line lastStart
      else (line, lastStart)

/-- Embedding of the naive linear-scan `offsetToPosition`
(tsRegexBackend.ts:301-314). -/
def offsetToPositionLinear (t : List Char) (offset : Nat) : Pos :=
  let r := linAux t 0 offset 0 0
  ⟨r.1, offset - r.2⟩

/-- Embedding of the module-level single-slot cache of `getLineStarts`
(types.ts:771-789): the cached text and its line-start table. -/
def getLineStartsC (cache : Option (List Char × List Nat)) (t : List Char) :
    List Nat × Option (List Char × List Nat) :=
  match cache with
  | some (ct, cs) =>
      if ct = t then (cs, some (ct, cs))
      else (lineStartsOf t, some (t, lineStartsOf t))
  | none => (lineStartsOf t, some (t, lineStartsOf t))

/-- The memoized binary-search `offsetToPosition`, threading the cache. -/
def offsetToPositionMemo (cache : Option (List Char × List Nat)) (t : List Char)
    (offset : Nat) : Pos × Option (List Char × List Nat) :=
  let r := getLineStartsC cache t
  (bsearchAux r.1 offset (r.1.length + 1) 0 ((r.1.length : Int) - 1), r.2)

/-- Cache state left behind by a sequence of earlier conversions (each
conversion calls `getLineStarts` once). -/
def cacheAfter (texts : List (List Char)) : Option (List Char × List Nat) :=
  texts.foldl (fun c t => (getLineStartsC c t).2) none

/-- Every newline-successor offset exceeds the base index. -/
theorem nlSuccs_gt : ∀ (cs : List Char) (i : Nat), ∀ p ∈ nlSuccs cs i, i < p := by
  intro cs
  induction cs with
  | nil => intro i p hp; simp [nlSuccs] at hp
  | cons c cs ih =>
      intro i p hp
      rw [nlSuccs] at hp
      by_cases hc : c = '\n'
      · rw [if_pos hc] at hp
        rcases List.mem_cons.mp hp with rfl | hp'
        · omega
        · have := ih (i + 1) p hp'
          omega
      · rw [if_neg hc] at hp
        have := ih (i + 1) p hp
        omega

/-- Helper: `getLast?` of a cons, in `getD` form. -/
theorem getLast_getD_cons (x : Nat) (l : List Nat) (d : Nat) :
    ((x :: l).getLast?).getD d = (l.getLast?).getD x := by
  cases l with
  | nil => rfl
  | cons y l' =>
      rw [List.getLast?_cons_cons]
      cases hl : (y :: l').getLast? with
      | none =>
          have h2 : (y :: l').getLast?.isSome := by
            rw [List.getLast?_isSome]
            simp
          rw [hl] at h2
          simp at h2
      | some v => simp [hl]

/-- Characterization of the linear scan: it returns the number of newline
successors not exceeding `stop`, plus the starting accumulators. -/
theorem linAux_spec :
    ∀ (cs : List Char) (i stop line lastStart : Nat),
      linAux cs i stop line lastStart =
        ((nlSuccs cs i).countP (fun p => decide (p ≤ stop)) + line,
          (((nlSuccs cs i).filter (fun p => decide (p ≤ stop))).getLast?).getD lastStart) := by
  intro cs
  induction cs with
  | nil => intro i stop line lastStart; simp [linAux, nlSuccs]
  | cons c cs ih =>
      intro i stop line lastStart
      by_cases hi : i < stop
      · by_cases hc : c = '\n'
        · subst hc
          have hle : (i + 1) ≤ stop := hi
          have hnl : nlSuccs ('\n' :: cs) i = (i + 1) :: nlSuccs cs (i + 1) := by
            simp [nlSuccs]
          rw [linAux, if_pos hi, if_pos rfl, ih, hnl, List.countP_cons, List.filter_cons]
          have hled : decide ((i + 1) ≤ stop) = true := by simpa using hle
          simp only [Prod.mk.injEq]
          constructor
          · rw [hled, if_pos rfl]
            omega
          · rw [hled, if_pos rfl, getLast_getD_cons]
        · rw [linAux, if_pos hi, if_neg hc, ih]
          simp [nlSuccs, hc]
      · have hstop : ∀ p ∈ nlSuccs (c :: cs) i, ¬(p ≤ stop) := by
          intro p hp
          have : i < p := nlSuccs_gt _ _ p hp
          omega
        rw [linAux, if_neg hi]
        have hcount : (nlSuccs (c :: cs) i).countP (fun p => decide (p ≤ stop)) = 0 := by
          rw [List.countP_eq_zero]
          intro p hp
          simpa using hstop p hp
        have hfilter : (nlSuccs (c :: cs) i).filter (fun p => decide (p ≤ stop)) = [] := by
          rw [List.filter_eq_nil_iff]
          intro p hp
          simpa using hstop p hp
        rw [hcount, hfilter]
        simp

/-- Newline successors are strictly increasing. -/
theorem nlSuccs_pairwise : ∀ (cs : List Char) (i : Nat),
    List.Pairwise (· < ·) (nlSuccs cs i) := by
  intro cs
  induction cs with
  | nil => intro i; simp [nlSuccs]
  | cons c cs ih =>
      intro i
      rw [nlSuccs]
      by_cases hc : c = '\n'
      · rw [if_pos hc]
        refine List.pairwise_cons.mpr ⟨?_, ih (i + 1)⟩
        intro p hp
        have := nlSuccs_gt cs (i + 1) p hp
        omega
      · rw [if_neg hc]
        exact ih (i + 1)

/-- The line-start table is strictly increasing. -/
theorem lineStarts_pairwise (t : List Char) :
    List.Pairwise (· < ·) (lineStartsOf t) := by
  rw [lineStartsOf]
  refine List.pairwise_cons.mpr ⟨?_, nlSuccs_pairwise t 0⟩
  intro p hp
  exact nlSuccs_gt t 0 p hp

/-- In a strictly increasing list, the entry at index `i` is at most
`offset` exactly when `i` is below the number of entries at most
`offset`. -/
theorem sorted_getD_le_iff (offset : Nat) :
    ∀ (l : List Nat), List.Pairwise (· < ·) l →
      ∀ i : Nat, i < l.length →
        (l.getD i 0 ≤ offset ↔ i < l.countP (fun x => decide (x ≤ offset))) := by
  intro l
  induction l with
  | nil => intro _ i hi; simp at hi
  | cons x xs ih =>
      intro hpw i hi
      obtain ⟨hx, hxs⟩ := List.pairwise_cons.mp hpw
      have hzero : ¬(x ≤ offset) → xs.countP (fun y => decide (y ≤ offset)) = 0 := by
        intro hxo
        rw [List.countP_eq_zero]
        intro y hy
        have := hx y hy
        simp only [decide_eq_true_eq]
        omega
      cases i with
      | zero =>
          rw [List.getD_cons_zero, List.countP_cons]
          by_cases hxo : x ≤ offset
          · have h1 : (if (decide (x ≤ offset)) = true then 1 else 0) = 1 := by simp [hxo]
            rw [h1]
            omega
          · have h1 : (if (decide (x ≤ offset)) = true then 1 else 0) = 0 := by simp [hxo]
            rw [h1, hzero hxo]
            omega
      | succ j =>
          have hj : j < xs.length := by simpa using hi
          have hIH := ih hxs j hj
          rw [List.getD_cons_succ, List.countP_cons, hIH]
          by_cases hxo : x ≤ offset
          · have h1 : (if (decide (x ≤ offset)) = true then 1 else 0) = 1 := by simp [hxo]
            rw [h1]
            omega
          · have h1 : (if (decide (x ≤ offset)) = true then 1 else 0) = 0 := by simp [hxo]
            rw [h1, hzero hxo]
            omega

/-- In a strictly increasing list, entries are strictly increasing in the
index (in `getD` form). -/
theorem sorted_getD_lt (l : List Nat) (hpw : List.Pairwise (· < ·) l)
    (i j : Nat) (hij : i < j) (hj : j < l.length) :
    l.getD i 0 < l.getD j 0 := by
  have hi : i < l.length := Nat.lt_trans hij hj
  rw [List.getD_eq_getElem _ _ hi, List.getD_eq_getElem _ _ hj]
  exact List.pairwise_iff_getElem.mp hpw i j hi hj hij

/-- On a strictly increasing list, filtering by `≤ offset` keeps exactly
the prefix counted by `countP`. -/
theorem filter_eq_take_countP (offset : Nat) :
    ∀ (l : List Nat), List.Pairwise (· < ·) l →
      l.filter (fun x => decide (x ≤ offset)) =
        l.take (l.countP (fun x => decide (x ≤ offset))) := by
  intro l
  induction l with
  | nil => intro _; rfl
  | cons x xs ih =>
      intro hpw
      obtain ⟨hx, hxs⟩ := List.pairwise_cons.mp hpw
      by_cases hxo : x ≤ offset
      · have h1 : (decide (x ≤ offset)) = true := by simp [hxo]
        rw [List.filter_cons, List.countP_cons, h1, if_pos rfl, if_pos rfl,
          List.take_succ_cons, ih hxs]
      · have h0 : xs.countP (fun y => decide (y ≤ offset)) = 0 := by
          rw [List.countP_eq_zero]
          intro y hy
          have := hx y hy
          simp only [decide_eq_true_eq]
          omega
        have hf : xs.filter (fun y => decide (y ≤ offset)) = [] := by
          rw [List.filter_eq_nil_iff]
          intro y hy
          have := hx y hy
          simp only [decide_eq_true_eq]
          omega
        simp [List.filter_cons, List.countP_cons, hxo, h0, hf]

/-- The last element of a nonempty `take` prefix, in `getD` form. -/
theorem take_getLast_getD :
    ∀ (l : List Nat) (c d : Nat), 0 < c → c ≤ l.length →
      ((l.take c).getLast?).getD d = l.getD (c - 1) 0 := by
  intro l
  induction l with
  | nil => intro c d hc hcl; simp at hcl; omega
  | cons x xs ih =>
      intro c d hc hcl
      cases c with
      | zero => omega
      | succ c' =>
          cases c' with
          | zero => simp
          | succ c'' =>
              have hxs : c'' + 1 ≤ xs.length := by simpa using hcl
              rw [List.take_succ_cons, getLast_getD_cons, ih _ x (by omega) hxs]
              simp

/-- Correctness of the binary-search loop: with the invariants
`0 ≤ low ≤ C` and `C - 1 ≤ high ≤ length - 1` (where `C` is the number of
line starts at most `offset`) and sufficient fuel, the loop returns line
`C - 1` with column `offset` minus that line's start. -/
theorem bsearchAux_correct (starts : List Nat) (offset : Nat)
    (hpw : List.Pairwise (· < ·) starts)
    (hlen : 1 ≤ starts.length) (hhead : starts.getD 0 0 = 0) :
    ∀ (fuel : Nat) (low high : Int),
      0 ≤ low →
      low ≤ (starts.countP (fun x => decide (x ≤ offset)) : Int) →
      ((starts.countP (fun x => decide (x ≤ offset)) : Int)) - 1 ≤ high →
      high ≤ (starts.length : Int) - 1 →
      (high - low + 1).toNat < fuel →
      bsearchAux starts offset fuel low high =
        ⟨starts.countP (fun x => decide (x ≤ offset)) - 1,
          offset - starts.getD (starts.countP (fun x => decide (x ≤ offset)) - 1) 0⟩ := by
  have hC1 : 1 ≤ starts.countP (fun x => decide (x ≤ offset)) := by
    cases starts with
    | nil => simp at hlen
    | cons a l =>
        have ha : a = 0 := by simpa using hhead
        subst ha
        rw [List.countP_cons]
        simp
  have hClen : starts.countP (fun x => decide (x ≤ offset)) ≤ starts.length :=
    List.countP_le_length _
  intro fuel
  induction fuel with
  | zero =>
      intro low high h1 h2 h3 h4 h5
      omega
  | succ f ih =>
      intro low high h1 h2 h3 h4 h5
      rw [bsearchAux]
      by_cases hlh : low ≤ high
      · rw [if_pos hlh]
        have hmidlow : low ≤ (low + high) / 2 := by omega
        have hmidhigh : (low + high) / 2 ≤ high := by omega
        have hmidlen : ((low + high) / 2).toNat < starts.length := by omega
        have hiff := sorted_getD_le_iff offset starts hpw ((low + high) / 2).toNat hmidlen
        by_cases heq : starts.getD ((low + high) / 2).toNat 0 = offset
        · rw [if_pos heq]
          have hlt : ((low + high) / 2).toNat <
              starts.countP (fun x => decide (x ≤ offset)) :=
            hiff.mp (le_of_eq heq)
          have hge : starts.countP (fun x => decide (x ≤ offset)) ≤
              ((low + high) / 2).toNat + 1 := by
            by_cases hnext : ((low + high) / 2).toNat + 1 < starts.length
            · have hmono := sorted_getD_lt starts hpw ((low + high) / 2).toNat
                (((low + high) / 2).toNat + 1) (by omega) hnext
              have hiff2 := sorted_getD_le_iff offset starts hpw
                (((low + high) / 2).toNat + 1) hnext
              by_contra hcon
              have hle2 := hiff2.mpr (by omega)
              omega
            · omega
          have hmideq : ((low + high) / 2).toNat =
              starts.countP (fun x => decide (x ≤ offset)) - 1 := by omega
          have hzero : offset -
              starts.getD (starts.countP (fun x => decide (x ≤ offset)) - 1) 0 = 0 := by
            rw [← hmideq, heq]
            omega
          rw [hmideq, hzero]
        · rw [if_neg heq]
          by_cases hslt : starts.getD ((low + high) / 2).toNat 0 < offset
          · rw [if_pos hslt]
            have hmlt : ((low + high) / 2).toNat <
                starts.countP (fun x => decide (x ≤ offset)) :=
              hiff.mp (le_of_lt hslt)
            exact ih ((low + high) / 2 + 1) high (by omega) (by omega) (by omega)
              (by omega) (by omega)
          · rw [if_neg hslt]
            have hnle : ¬(starts.getD ((low + high) / 2).toNat 0 ≤ offset) := by omega
            have hge2 : starts.countP (fun x => decide (x ≤ offset)) ≤
                ((low + high) / 2).toNat := by
              by_contra hcon
              exact hnle (hiff.mpr (by omega))
            exact ih low ((low + high) / 2 - 1) (by omega) (by omega) (by omega)
              (by omega) (by omega)
      · rw [if_neg hlh]
        have hmax : (max 0 (low - 1)).toNat =
            starts.countP (fun x => decide (x ≤ offset)) - 1 := by omega
        rw [hmax]

/-- The binary-search conversion agrees with the naive linear scan, for
every text and every offset. -/
theorem offsetToPosition_eq_linear (t : List Char) (offset : Nat) :
    offsetToPosition t offset = offsetToPositionLinear t offset := by
  have hpw := lineStarts_pairwise t
  have hlen : 1 ≤ (lineStartsOf t).length := by simp [lineStartsOf]
  have hhead : (lineStartsOf t).getD 0 0 = 0 := rfl
  have hClen : (lineStartsOf t).countP (fun x => decide (x ≤ offset)) ≤
      (lineStartsOf t).length := List.countP_le_length _
  have hbs := bsearchAux_correct (lineStartsOf t) offset hpw hlen hhead
    ((lineStartsOf t).length + 1) 0 (((lineStartsOf t).length : Int) - 1)
    (by omega) (by omega) (by omega) (by omega) (by omega)
  have hCrel : (lineStartsOf t).countP (fun x => decide (x ≤ offset)) =
      (nlSuccs t 0).countP (fun p => decide (p ≤ offset)) + 1 := by
    rw [lineStartsOf, List.countP_cons]
    simp
  have h2 : (lineStartsOf t).getD ((nlSuccs t 0).countP (fun p => decide (p ≤ offset))) 0 =
      (((nlSuccs t 0).filter (fun p => decide (p ≤ offset))).getLast?).getD 0 := by
    cases hcnt : (nlSuccs t 0).countP (fun p => decide (p ≤ offset)) with
    | zero =>
        have hfl : (nlSuccs t 0).filter (fun p => decide (p ≤ offset)) = [] := by
          rw [List.countP_eq_length_filter] at hcnt
          exact List.eq_nil_of_length_eq_zero hcnt
        rw [hfl]
        rfl
    | succ c =>
        have hcle : c + 1 ≤ (nlSuccs t 0).length := by
          have hle := List.countP_le_length
            (p := fun p => decide (p ≤ offset)) (l := nlSuccs t 0)
          omega
        rw [filter_eq_take_countP offset _ (nlSuccs_pairwise t 0), hcnt]
        rw [take_getLast_getD _ _ _ (by omega) hcle]
        rw [lineStartsOf, List.getD_cons_succ]
        simp
  simp only [offsetToPosition, offsetToPositionLinear]
  rw [hbs, linAux_spec]
  simp only [Pos.mk.injEq]
  constructor
  · omega
  · rw [hCrel]
    simp only [Nat.add_sub_cancel]
    rw [h2]

/-- Well-formedness of the single-slot cache: whatever text is cached, the
stored table is that text's line-start table.  Every cache state reachable
by a sequence of conversions satisfies this. -/
def CacheWF (c : Option (List Char × List Nat)) : Prop :=
  ∀ ct cs, c = some (ct, cs) → cs = lineStartsOf ct

theorem getLineStartsC_fst (c : Option (List Char × List Nat)) (t : List Char)
    (h : CacheWF c) : (getLineStartsC c t).1 = lineStartsOf t := by
  cases c with
  | none => rfl
  | some e =>
      obtain ⟨ct, cs⟩ := e
      by_cases hct : ct = t
      · simp only [getLineStartsC, if_pos hct]
        rw [h ct cs rfl, hct]
      · simp [getLineStartsC, hct]

theorem getLineStartsC_wf (c : Option (List Char × List Nat)) (t : List Char)
    (h : CacheWF c) : CacheWF (getLineStartsC c t).2 := by
  cases c with
  | none =>
      intro ct cs hc
      simp only [getLineStartsC] at hc
      obtain ⟨h1, h2⟩ := Prod.mk.injEq .. ▸ (Option.some.injEq .. ▸ hc)
      rw [← h1]
      exact h2.symm
  | some e =>
      obtain ⟨ct0, cs0⟩ := e
      by_cases hct : ct0 = t
      · simp only [getLineStartsC, if_pos hct]
        exact h
      · intro ct cs hc
        simp only [getLineStartsC, if_neg hct] at hc
        obtain ⟨h1, h2⟩ := Prod.mk.injEq .. ▸ (Option.some.injEq .. ▸ hc)
        rw [← h1]
        exact h2.symm

theorem cacheAfter_wf (texts : List (List Char)) : CacheWF (cacheAfter texts) := by
  have hgen : ∀ (ts : List (List Char)) (c : Option (List Char × List Nat)),
      CacheWF c → CacheWF (ts.foldl (fun c' t => (getLineStartsC c' t).2) c) := by
    intro ts
    induction ts with
    | nil => intro c hc; exact hc
    | cons t ts ih =>
        intro c hc
        exact ih _ (getLineStartsC_wf c t hc)
  exact hgen texts none (by intro ct cs hc; cases hc)

/-- C9.  For every text and every offset, the memoized binary-search
offset-to-position conversion — run against the cache state left behind by
any sequence of earlier conversions of other texts — returns exactly the
line/column pair of the naive linear scan over newline characters; the
cache-free binary search agrees as well.  (Proved for all offsets, which
subsumes the claimed range `[0, length]`.) -/
theorem c9_offset_to_position :
    ∀ (prior : List (List Char)) (t : List Char) (offset : Nat),
      (offsetToPositionMemo (cacheAfter prior) t offset).1 =
        offsetToPositionLinear t offset ∧
      offsetToPosition t offset = offsetToPositionLinear t offset := by
  intro prior t offset
  have hwf := cacheAfter_wf prior
  have hfst := getLineStartsC_fst (cacheAfter prior) t hwf
  constructor
  · show bsearchAux (getLineStartsC (cacheAfter prior) t).1 offset
        ((getLineStartsC (cacheAfter prior) t).1.length + 1) 0
        (((getLineStartsC (cacheAfter prior) t).1.length : Int) - 1) =
      offsetToPositionLinear t offset
    rw [hfst]
    exact offsetToPosition_eq_linear t offset
  · exact offsetToPosition_eq_linear t offset

end Vetree
